import Mathlib

/-!
Verification of hggit/util.py (SSH-endpoint classifier, SSH-argument-injection
guard, encoding normalizer, and companion helpers) against its specification.

Python strings are modelled as `List Char` (one `Char` per code point) and byte
strings as `List Nat` (one `Nat` per byte, each < 256 at construction sites).
Machine-level caveats that the embedding makes explicit are noted at each
definition.
-/

set_option maxRecDepth 10000

/-- Shorthand turning a Lean string literal into the `List Char` model of a
Python text string. -/
def toL (s : String) : List Char := s.data

/-! ## Generic string helpers shared by the embedded functions -/

/-- Models Python `a.startswith(b)` (here: `begins b a` means the list `a`
begins with `b`). -/
def begins : List Char → List Char → Bool
  | [], _ => true
  | _, [] => false
  | p :: ps, c :: cs => p = c && begins ps cs

/-- Models Python `s.endswith(p)` via reversal. -/
def endsWith (p s : List Char) : Bool := begins p.reverse s.reverse

/-- Hexadecimal digit value, as used by percent-decoding. -/
def unhex (c : Char) : Option Nat :=
  if '0' ≤ c ∧ c ≤ '9' then some (c.toNat - '0'.toNat)
  else if 'a' ≤ c ∧ c ≤ 'f' then some (c.toNat - 'a'.toNat + 10)
  else if 'A' ≤ c ∧ c ≤ 'F' then some (c.toNat - 'A'.toNat + 10)
  else none

/-- Models `urllib.parse.unquote`: every `%` followed by two hex digits is
replaced by the character with that byte value; a `%` not followed by two hex
digits is kept verbatim.  (CPython additionally UTF-8-decodes runs of decoded
bytes; that coincides with this model on ASCII escapes, and the leading
character of the result — the only thing `checksafessh` inspects — is `'-'`
in CPython exactly when the first decoded byte is 0x2D, as here.) -/
def unquote : List Char → List Char
  | [] => []
  | '%' :: a :: b :: rest =>
    match unhex a, unhex b with
    | some x, some y => Char.ofNat (16 * x + y) :: unquote rest
    | _, _ => '%' :: unquote (a :: b :: rest)
  | c :: rest => c :: unquote rest

/-! ## checksafessh (src/hggit/util.py lines 136-149)

```python
def checksafessh(host):
    host = urllib.parse.unquote(host)
    if host.startswith('-'):
        raise error.Abort(_('potentially unsafe hostname: %r') % (host,))
```

The `error.Abort` is modelled as `Except.error` carrying the decoded host
string that the abort message interpolates. -/

def checksafessh (host : List Char) : Except (List Char) Unit :=
  let host2 := unquote host
  if host2.head? = some '-' then Except.error host2 else Except.ok ()

/-! ## Claim C1 -/

/-- C1: `checksafessh` raises (an abort carrying the percent-decoded host)
if and only if the percent-decoding of the host starts with `'-'`; on a safe
host it returns normally.  In particular it fails for `"-oProxyCommand=x"`
and `"%2doProxyCommand=x"` and succeeds for `"github.com"`. -/
theorem checksafessh_spec :
    (∀ host : List Char,
      ((∃ e, checksafessh host = Except.error e) ↔ (unquote host).head? = some '-')) ∧
    (∀ host e, checksafessh host = Except.error e → e = unquote host) ∧
    (∀ host : List Char,
      (unquote host).head? ≠ some '-' → checksafessh host = Except.ok ()) ∧
    (∃ e, checksafessh (toL "-oProxyCommand=x") = Except.error e) ∧
    (∃ e, checksafessh (toL "%2doProxyCommand=x") = Except.error e) ∧
    checksafessh (toL "github.com") = Except.ok () := by
  refine ⟨?_, ?_, ?_, ?_, ?_, ?_⟩
  · intro host
    constructor
    · rintro ⟨e, he⟩
      by_contra hn
      simp only [checksafessh, if_neg hn] at he
      cases he
    · intro h
      exact ⟨unquote host, by simp only [checksafessh, if_pos h]⟩
  · intro host e he
    simp only [checksafessh] at he
    split at he
    · cases he; rfl
    · cases he
  · intro host h
    simp only [checksafessh, if_neg h]
  · exact ⟨unquote (toL "-oProxyCommand=x"), rfl⟩
  · exact ⟨unquote (toL "%2doProxyCommand=x"), rfl⟩
  · rfl

/-- Witness for C1: the guard aborts on a concrete decoded-to-dash host and
passes a concrete safe host, by direct application of `checksafessh_spec`. -/
theorem checksafessh_spec_witness :
    checksafessh (toL "github.com") = Except.ok () :=
  checksafessh_spec.2.2.1 (toL "github.com") (by decide)

/-! ## isgitsshuri (src/hggit/util.py lines 68-106)

```python
gitschemes = ('git', 'git+ssh', 'git+http', 'git+https')

def isgitsshuri(uri):
    for scheme in gitschemes:
        if uri.startswith('%s://' % scheme):
            return False
    if uri.startswith('http:') or uri.startswith('https:'):
        return False
    m = re.match(r'(?:.+@)*([\[]?[\w\d\.\:\-]+[\]]?):(.*)', uri)
    if m:
        giturl, repopath = m.groups()
        if repopath.endswith('.git'):
            return True
        fqdn_re = (r'(?=^.\x7b4,253\x7d$)(^((?!-)[a-zA-Z0-9-]\x7b1,63\x7d'
                   r'(?<!-)\.)+[a-zA-Z]\x7b2,63\x7d$)')
        if re.match(fqdn_re, giturl):
            return True
    return False
```

The two `re.match` calls are embedded operationally below, reproducing
CPython's leftmost match under greedy backtracking (validated pointwise
against CPython on the doctests and on adversarial inputs).  `\w` is modelled
as ASCII word characters (letters, digits, underscore); CPython's `\w` also
matches non-ASCII letters, which no claim exercises. -/

/-- Models the regex class `\w` over ASCII (see module note above). -/
def isWordChar (c : Char) : Bool := c.isAlphanum || c = '_'

/-- Models the regex class `[\w\d\.\:\-]` used for the host token. -/
def isHostChar (c : Char) : Bool := isWordChar c || c = '.' || c = ':' || c = '-'

/-- Models the group `(.*)`: the rest of the current line (regex `.` does not
match a newline). -/
def takeLine (l : List Char) : List Char := l.takeWhile (fun c => c ≠ '\n')

/-- Index of the last `':'` in a list, if any.  Used to model the greedy
backtracking of `[\w\d\.\:\-]+` followed by a literal `':'`: the rightmost
`':'` that leaves a nonempty host yields the match the engine commits to. -/
def findLastColon : List Char → Option Nat
  | [] => none
  | c :: r =>
    match findLastColon r with
    | some j => some (j + 1)
    | none => if c = ':' then some 0 else none

/-- Worker for `matchB` after the optional `[\[]?` has consumed a leading
bracket (`br` records whether it did).  `run` is the maximal run matched by
the greedy `[\w\d\.\:\-]+` and `s2` what follows it. -/
def matchBCore (br : Bool) (s1 : List Char) : Option (List Char × List Char) :=
  let run := s1.takeWhile isHostChar
  let s2 := s1.dropWhile isHostChar
  if run = [] then none
  else
    match s2 with
    | ']' :: ':' :: r =>
      some ((if br then '[' :: run else run) ++ [']'], takeLine r)
    | _ =>
      match findLastColon run with
      | some k =>
        if 1 ≤ k then
          some ((if br then '[' :: run.take k else run.take k),
                takeLine (run.drop (k + 1) ++ s2))
        else none
      | none => none

/-- Models matching `([\[]?[\w\d\.\:\-]+[\]]?):(.*)` at the start of `s`,
returning the two groups (host token including any brackets, path remainder).
Branch priority reproduces the engine: the whole host-character run followed
by `']' ':'` is preferred (greedy `+` then greedy `[\]]?`); otherwise the
host ends at the last `':'` inside the run that leaves it nonempty. -/
def matchB : List Char → Option (List Char × List Char)
  | '[' :: s1 => matchBCore true s1
  | s => matchBCore false s

/-- Suffixes of the input that start right after an `'@'` at index ≥ 1 on the
first line, in left-to-right order.  `(?:.+@)*` can put the start of the host
group exactly after such an `'@'` (a single chunk `.+@` reaches any of them;
`.` excludes newlines, and the chunk needs at least one character before the
`'@'`). -/
def atSuffixes : Nat → List Char → List (List Char)
  | _, [] => []
  | i, c :: r =>
    if c = '\n' then []
    else
      let rest := atSuffixes (i + 1) r
      if c = '@' ∧ 1 ≤ i then r :: rest else rest

/-- First successful `matchB` over a list of candidate suffixes. -/
def tryCands : List (List Char) → Option (List Char × List Char)
  | [] => none
  | s :: rest =>
    match matchB s with
    | some m => some m
    | none => tryCands rest

/-- Models `re.match(r'(?:.+@)*([\[]?[\w\d\.\:\-]+[\]]?):(.*)', uri)`:
the greedy `(?:.+@)*` makes the engine try host-group start positions from
the rightmost eligible `'@'` leftwards, and finally position 0. -/
def sshMatch (uri : List Char) : Option (List Char × List Char) :=
  match tryCands (atSuffixes 0 uri).reverse with
  | some m => some m
  | none => matchB uri

/-- Split a list at the first occurrence of `sep`, if present. -/
def splitOnce (sep : Char) : List Char → Option (List Char × List Char)
  | [] => none
  | c :: r =>
    if c = sep then some ([], r)
    else
      match splitOnce sep r with
      | some (a, b) => some (c :: a, b)
      | none => none

theorem splitOnce_length {sep : Char} :
    ∀ {t a b : List Char}, splitOnce sep t = some (a, b) →
      a.length + 1 + b.length = t.length := by
  intro t
  induction t with
  | nil => intro a b h; cases h
  | cons c r ih =>
    intro a b h
    simp only [splitOnce] at h
    split at h
    · cases h; simp; omega
    · revert h
      split
      · rename_i a0 b0 heq
        intro h; cases h
        have := ih heq
        simp [List.length_cons]; omega
      · intro h; cases h

/-- Models the regex class `[a-zA-Z0-9-]` of an FQDN label. -/
def labelChar (c : Char) : Bool := c.isAlphanum || c = '-'

/-- Models `(?!-)[a-zA-Z0-9-]{1,63}(?<!-)` — a label of the FQDN pattern. -/
def validLabel (l : List Char) : Bool :=
  decide (l ≠ []) && decide (l.length ≤ 63) && l.all labelChar &&
    decide (l.head? ≠ some '-') && decide (l.getLast? ≠ some '-')

/-- Models `[a-zA-Z]{2,63}$` — the top-level label of the FQDN pattern. -/
def isTld (t : List Char) : Bool :=
  decide (2 ≤ t.length) && decide (t.length ≤ 63) && t.all Char.isAlpha

/-- Fuel-indexed worker for `fqdnBody`; the fuel only serves structural
termination and never runs out when it starts at the subject's length. -/
def fqdnBodyF : Nat → List Char → Bool
  | 0, _ => false
  | fuel + 1, t =>
    match splitOnce '.' t with
    | none => false
    | some (lab, rest) => validLabel lab && (isTld rest || fqdnBodyF fuel rest)

/-- Models the anchored body `((?!-)[a-zA-Z0-9-]{1,63}(?<!-)\.)+[a-zA-Z]{2,63}$`.
Labels cannot contain `'.'`, so the decomposition is the split at the first
dot and the match relation is this recursion (run with enough fuel). -/
def fqdnBody (t : List Char) : Bool := fqdnBodyF t.length t

/-- The fuel of `fqdnBodyF` is irrelevant once it is at least the length of
the subject. -/
theorem fqdnBodyF_stable :
    ∀ {f1 f2 : Nat} {t : List Char}, t.length ≤ f1 → t.length ≤ f2 →
      fqdnBodyF f1 t = fqdnBodyF f2 t := by
  intro f1
  induction f1 with
  | zero =>
    intro f2 t h1 _
    have : t = [] := List.length_eq_zero.mp (Nat.le_zero.mp h1)
    subst this
    cases f2 <;> simp [fqdnBodyF, splitOnce]
  | succ f ih =>
    intro f2 t h1 h2
    cases t with
    | nil => cases f2 <;> simp [fqdnBodyF, splitOnce]
    | cons c r =>
      cases f2 with
      | zero => simp at h2
      | succ g =>
        simp only [fqdnBodyF]
        cases hs : splitOnce '.' (c :: r) with
        | none => rfl
        | some ab =>
          obtain ⟨lab, rest⟩ := ab
          have hlen := splitOnce_length hs
          simp only []
          simp only [List.length_cons] at hlen h1 h2
          have hr1 : rest.length ≤ f := by omega
          have hr2 : rest.length ≤ g := by omega
          rw [ih hr1 hr2]

/-- Unfolding rule for `fqdnBody` along the first-dot split. -/
theorem fqdnBody_eq (t : List Char) :
    fqdnBody t =
      match splitOnce '.' t with
      | none => false
      | some (lab, rest) => validLabel lab && (isTld rest || fqdnBody rest) := by
  cases t with
  | nil => simp [fqdnBody, fqdnBodyF, splitOnce]
  | cons c r =>
    show fqdnBodyF (r.length + 1) (c :: r) = _
    simp only [fqdnBodyF]
    cases hs : splitOnce '.' (c :: r) with
    | none => rfl
    | some ab =>
      obtain ⟨lab, rest⟩ := ab
      have hlen := splitOnce_length hs
      simp only [fqdnBody]
      simp only [List.length_cons] at hlen
      have : rest.length ≤ r.length := by omega
      rw [fqdnBodyF_stable this (Nat.le_refl _)]

/-- Models `re.match(fqdn_re, s)` for the full guarded pattern
`(?=^.{4,253}$)(^((?!-)[a-zA-Z0-9-]{1,63}(?<!-)\.)+[a-zA-Z]{2,63}$)`:
`$` may also match just before one trailing newline, and `.` matches no
newline, so the effective subject is `s` minus one trailing newline and must
itself be newline-free and 4-253 characters long. -/
def fqdn (s : List Char) : Bool :=
  let t := if s.getLast? = some '\n' then s.dropLast else s
  t.all (fun c => c ≠ '\n') && decide (4 ≤ t.length) && decide (t.length ≤ 253) &&
    fqdnBody t

/-- The scheme tuple `gitschemes` from the source. -/
def gitschemes : List (List Char) :=
  [toL "git", toL "git+ssh", toL "git+http", toL "git+https"]

/-- The classifier `isgitsshuri`. -/
def isgitsshuri (uri : List Char) : Bool :=
  if gitschemes.any (fun scheme => begins (scheme ++ toL "://") uri) then false
  else if begins (toL "http:") uri || begins (toL "https:") uri then false
  else
    match sshMatch uri with
    | some (giturl, repopath) =>
      endsWith (toL ".git") repopath || fqdn giturl
    | none => false

example : isgitsshuri (toL "http://fqdn.com/hg") = false := by decide
example : isgitsshuri (toL "http://fqdn.com/test.git") = false := by decide
example : isgitsshuri (toL "git@github.com:user/repo.git") = true := by decide
example : isgitsshuri (toL "github-123.com:user/repo.git") = true := by decide
example : isgitsshuri (toL "git@127.0.0.1:repo.git") = true := by decide
example : isgitsshuri (toL "git@[2001:db8::1]:repository.git") = true := by decide
example : isgitsshuri (toL "[2001:db8::1]:repo") = false := by decide
example : isgitsshuri (toL "host-only-no-colon") = false := by decide
example : isgitsshuri (toL "short.com:repo.git") = true := by decide
example : isgitsshuri (toL "not_a_host_at_all") = false := by decide
example : fqdn (toL "ab.com") = true := by decide
example : fqdn (toL "a.b.c.com") = true := by decide
example : fqdn (toL "-a.com") = false := by decide
example : fqdn (toL "a.1com") = false := by decide
example : sshMatch (toL "a:b:c") = some (toL "a:b", toL "c") := by decide
example : sshMatch (toL "a:b/c:d") = some (toL "a", toL "b/c:d") := by decide
example : sshMatch (toL "x@@y") = none := by decide
example : sshMatch (toL "a@b c@host:x") = some (toL "host", toL "x") := by decide
example : sshMatch (toL "@host:p") = none := by decide

/-! ## Spec-side FQDN predicate and its equivalence with the embedded regex -/

theorem splitOnce_some {sep : Char} :
    ∀ {t a b : List Char}, splitOnce sep t = some (a, b) →
      t = a ++ sep :: b ∧ sep ∉ a := by
  intro t
  induction t with
  | nil => intro a b h; cases h
  | cons c r ih =>
    intro a b h
    simp only [splitOnce] at h
    split at h
    · rename_i hc
      cases h
      exact ⟨by rw [hc]; rfl, by simp⟩
    · rename_i hc
      revert h
      split
      · rename_i a0 b0 heq
        intro h; cases h
        obtain ⟨he, hn⟩ := ih heq
        constructor
        · rw [he]; rfl
        · simp only [List.mem_cons]
          rintro (h1 | h2)
          · exact hc h1.symm
          · exact hn h2
      · intro h; cases h

theorem splitOnce_append {sep : Char} :
    ∀ {a : List Char} (b : List Char), sep ∉ a →
      splitOnce sep (a ++ sep :: b) = some (a, b) := by
  intro a
  induction a with
  | nil => intro b _; simp [splitOnce]
  | cons c r ih =>
    intro b h
    simp only [List.mem_cons, not_or] at h
    obtain ⟨h1, h2⟩ := h
    simp only [List.cons_append, splitOnce, List.append_eq]
    rw [if_neg (fun hc => h1 hc.symm), ih b h2]

/-- Spec wording of a label: 1-63 alphanumerics/hyphens, not starting or
ending with a hyphen. -/
def SpecLabel (l : List Char) : Prop :=
  1 ≤ l.length ∧ l.length ≤ 63 ∧ (∀ c ∈ l, labelChar c = true) ∧
    l.head? ≠ some '-' ∧ l.getLast? ≠ some '-'

/-- Spec wording of the final top-level label: 2-63 letters. -/
def SpecTld (t : List Char) : Prop :=
  2 ≤ t.length ∧ t.length ≤ 63 ∧ ∀ c ∈ t, c.isAlpha = true

/-- Spec wording of the FQDN heuristic: at least one label followed by a dot,
then a top-level label, total length 4-253 characters. -/
def SpecFQDN (t : List Char) : Prop :=
  (∃ labs tld, labs ≠ [] ∧ (∀ lab ∈ labs, SpecLabel lab) ∧ SpecTld tld ∧
      t = (labs.map (fun lab => lab ++ ['.'])).flatten ++ tld) ∧
    4 ≤ t.length ∧ t.length ≤ 253

theorem validLabel_iff {l : List Char} : validLabel l = true ↔ SpecLabel l := by
  simp only [validLabel, SpecLabel, Bool.and_eq_true, decide_eq_true_eq,
    List.all_eq_true]
  constructor
  · rintro ⟨⟨⟨⟨h1, h2⟩, h3⟩, h4⟩, h5⟩
    exact ⟨by cases l with | nil => exact absurd rfl h1 | cons a r => simp,
      h2, h3, h4, h5⟩
  · rintro ⟨h1, h2, h3, h4, h5⟩
    refine ⟨⟨⟨⟨?_, h2⟩, h3⟩, h4⟩, h5⟩
    intro he
    rw [he] at h1
    simp at h1

theorem isTld_iff {t : List Char} : isTld t = true ↔ SpecTld t := by
  simp only [isTld, SpecTld, Bool.and_eq_true, decide_eq_true_eq,
    List.all_eq_true, and_assoc]

theorem labelChar_ne_dot {c : Char} (h : labelChar c = true) : c ≠ '.' := by
  intro hc
  subst hc
  revert h
  decide

theorem fqdnBody_iff :
    ∀ t : List Char, fqdnBody t = true ↔
      ∃ labs tld, labs ≠ [] ∧ (∀ lab ∈ labs, SpecLabel lab) ∧ SpecTld tld ∧
        t = (labs.map (fun lab => lab ++ ['.'])).flatten ++ tld := by
  suffices H : ∀ (n : Nat) (t : List Char), t.length ≤ n →
      (fqdnBody t = true ↔
        ∃ labs tld, labs ≠ [] ∧ (∀ lab ∈ labs, SpecLabel lab) ∧ SpecTld tld ∧
          t = (labs.map (fun lab => lab ++ ['.'])).flatten ++ tld) by
    intro t
    exact H t.length t (Nat.le_refl _)
  intro n
  induction n with
  | zero =>
    intro t ht
    have : t = [] := List.length_eq_zero.mp (Nat.le_zero.mp ht)
    subst this
    constructor
    · intro h
      rw [fqdnBody_eq] at h
      simp [splitOnce] at h
    · rintro ⟨labs, tld, hne, _, _, heq⟩
      cases labs with
      | nil => exact absurd rfl hne
      | cons l1 ls => simp at heq
  | succ n ih =>
    intro t ht
    rw [fqdnBody_eq]
    cases hs : splitOnce '.' t with
    | none =>
      simp only [Bool.false_eq_true, false_iff]
      rintro ⟨labs, tld, hne, hlabs, _, heq⟩
      cases labs with
      | nil => exact absurd rfl hne
      | cons l1 ls =>
        have hd : '.' ∉ l1 := by
          intro hmem
          exact labelChar_ne_dot ((hlabs l1 (by simp)).2.2.1 '.' hmem) rfl
        have : splitOnce '.' t = some (l1, ((ls.map (fun lab => lab ++ ['.'])).flatten ++ tld)) := by
          rw [heq]
          simp only [List.map_cons, List.flatten_cons, List.append_assoc]
          have : l1 ++ ['.'] ++ ((ls.map (fun lab => lab ++ ['.'])).flatten ++ tld)
              = l1 ++ '.' :: ((ls.map (fun lab => lab ++ ['.'])).flatten ++ tld) := by
            simp
          rw [← List.append_assoc, this]
          exact splitOnce_append _ hd
        rw [hs] at this
        cases this
    | some ab =>
      obtain ⟨lab, rest⟩ := ab
      obtain ⟨heq, hnd⟩ := splitOnce_some hs
      have hlen := splitOnce_length hs
      have hrest : rest.length ≤ n := by omega
      constructor
      · intro h
        simp only [Bool.and_eq_true, Bool.or_eq_true] at h
        obtain ⟨hv, hrec⟩ := h
        cases hrec with
        | inl htld =>
          exact ⟨[lab], rest, by simp, by
            intro l hl
            simp at hl
            rw [hl]
            exact validLabel_iff.mp hv, isTld_iff.mp htld, by
            rw [heq]; simp⟩
        | inr hbody =>
          obtain ⟨labs, tld, hne, hlabs, htld, hre⟩ := (ih rest hrest).mp hbody
          refine ⟨lab :: labs, tld, by simp, ?_, htld, ?_⟩
          · intro l hl
            rcases List.mem_cons.mp hl with h1 | h2
            · rw [h1]; exact validLabel_iff.mp hv
            · exact hlabs l h2
          · rw [heq, hre]
            simp
      · rintro ⟨labs, tld, hne, hlabs, htld, hd⟩
        cases labs with
        | nil => exact absurd rfl hne
        | cons l1 ls =>
          have hd1 : '.' ∉ l1 := by
            intro hmem
            exact labelChar_ne_dot ((hlabs l1 (by simp)).2.2.1 '.' hmem) rfl
          have hsplit : splitOnce '.' t
              = some (l1, ((ls.map (fun lab => lab ++ ['.'])).flatten ++ tld)) := by
            rw [hd]
            simp only [List.map_cons, List.flatten_cons, List.append_assoc]
            have : l1 ++ ['.'] ++ ((ls.map (fun lab => lab ++ ['.'])).flatten ++ tld)
                = l1 ++ '.' :: ((ls.map (fun lab => lab ++ ['.'])).flatten ++ tld) := by
              simp
            rw [← List.append_assoc, this]
            exact splitOnce_append _ hd1
          rw [hs] at hsplit
          cases hsplit
          simp only [Bool.and_eq_true, Bool.or_eq_true]
          refine ⟨validLabel_iff.mpr (hlabs lab (by simp)), ?_⟩
          cases ls with
          | nil =>
            left
            simp only [List.map_nil, List.flatten_nil, List.nil_append]
            exact isTld_iff.mpr htld
          | cons l2 ls2 =>
            right
            refine (ih _ hrest).mpr ⟨l2 :: ls2, tld, by simp, ?_, htld, rfl⟩
            intro l hl
            exact hlabs l (List.mem_cons_of_mem _ hl)

/-- On a newline-free subject (as every extracted host token is), the fqdn
regex is exactly the structural FQDN predicate of the spec. -/
theorem fqdn_iff_spec {t : List Char} (h : '\n' ∉ t) :
    fqdn t = true ↔ SpecFQDN t := by
  have hlast : t.getLast? ≠ some '\n' := by
    intro hc
    exact h (List.mem_of_mem_getLast? hc)
  simp only [fqdn, if_neg hlast, Bool.and_eq_true, decide_eq_true_eq,
    List.all_eq_true, SpecFQDN]
  constructor
  · rintro ⟨⟨⟨_, h4⟩, h253⟩, hbody⟩
    exact ⟨(fqdnBody_iff t).mp hbody, h4, h253⟩
  · rintro ⟨hdec, h4, h253⟩
    refine ⟨⟨⟨?_, h4⟩, h253⟩, (fqdnBody_iff t).mpr hdec⟩
    intro c hc
    intro he
    rw [he] at hc
    exact h hc

/-! ## Soundness and greediness of the embedded host-path match -/

/-- Shape of the regex group `[\[]?[\w\d\.\:\-]+[\]]?`: a nonempty core of
host characters, optionally preceded by `'['` and optionally followed by
`']'`. -/
def hostShapeOf (g : List Char) : Prop :=
  ∃ core, core ≠ [] ∧ (∀ c ∈ core, isHostChar c = true) ∧
    (g = core ∨ g = '[' :: core ∨ g = core ++ [']'] ∨ g = '[' :: core ++ [']'])

theorem dropWhile_head_false {p : Char → Bool} :
    ∀ {l : List Char} {c : Char} {r : List Char},
      l.dropWhile p = c :: r → p c = false := by
  intro l
  induction l with
  | nil => intro c r h; cases h
  | cons a t ih =>
    intro c r h
    rw [List.dropWhile_cons] at h
    split at h
    · exact ih h
    · cases h
      rename_i hpa
      exact Bool.not_eq_true _ ▸ hpa

theorem takeWhile_extend {p : Char → Bool} :
    ∀ {c2 : List Char} {t l : List Char}, l = c2 ++ t →
      (∀ c ∈ c2, p c = true) → ∃ t2, l.takeWhile p = c2 ++ t2 := by
  intro c2
  induction c2 with
  | nil => intro t l _ _; exact ⟨l.takeWhile p, by simp⟩
  | cons c cs ih =>
    intro t l hl hall
    subst hl
    have hc : p c = true := hall c (by simp)
    obtain ⟨t2, ht2⟩ := ih rfl (fun x hx => hall x (by simp [hx]))
    refine ⟨t2, ?_⟩
    rw [List.cons_append, List.takeWhile_cons, hc, ht2]
    simp

theorem findLastColon_none :
    ∀ {l : List Char}, findLastColon l = none → ':' ∉ l := by
  intro l
  induction l with
  | nil => intro _; simp
  | cons c r ih =>
    intro h
    unfold findLastColon at h
    cases hr : findLastColon r with
    | some j => simp only [hr] at h; simp at h
    | none =>
      simp only [hr] at h
      by_cases hc : c = ':'
      · rw [if_pos hc] at h; simp at h
      · rw [if_neg hc] at h
        simp only [List.mem_cons, not_or]
        exact ⟨fun he => hc he.symm, ih hr⟩

theorem findLastColon_some :
    ∀ {l : List Char} {k : Nat}, findLastColon l = some k →
      ∃ a b, l = a ++ ':' :: b ∧ a.length = k ∧ ':' ∉ b := by
  intro l
  induction l with
  | nil => intro k h; cases h
  | cons c r ih =>
    intro k h
    unfold findLastColon at h
    cases hr : findLastColon r with
    | some j =>
      simp only [hr] at h
      injection h with hk
      obtain ⟨a, b, he, hl, hb⟩ := ih hr
      refine ⟨c :: a, b, by rw [he]; rfl, ?_, hb⟩
      simp only [List.length_cons]
      omega
    | none =>
      simp only [hr] at h
      by_cases hc : c = ':'
      · rw [if_pos hc] at h
        cases h
        exact ⟨[], r, by simp [hc], rfl, findLastColon_none hr⟩
      · rw [if_neg hc] at h
        simp at h

/-- Remainder structure after the `(.*)` group: the input beyond the path is
empty or starts with a newline. -/
theorem takeLine_split (l : List Char) :
    ∃ rest, l = takeLine l ++ rest ∧ ('\n' ∉ takeLine l) ∧
      (rest = [] ∨ ∃ r2, rest = '\n' :: r2) := by
  refine ⟨l.dropWhile (fun c => c ≠ '\n'), ?_, ?_, ?_⟩
  · exact (List.takeWhile_append_dropWhile _ _).symm
  · intro hmem
    have := List.mem_takeWhile_imp hmem
    simp at this
  · cases hd : l.dropWhile (fun c => c ≠ '\n') with
    | nil => exact Or.inl rfl
    | cons c r =>
      right
      have hcn := dropWhile_head_false hd
      simp at hcn
      exact ⟨r, by rw [hcn]⟩

theorem last_colon_ge :
    ∀ {a c2 b t2t : List Char}, a ++ ':' :: b = c2 ++ ':' :: t2t → ':' ∉ b →
      c2.length ≤ a.length := by
  intro a
  induction a with
  | nil =>
    intro c2 b t2t h hb
    cases c2 with
    | nil => exact Nat.le_refl _
    | cons d c2t =>
      simp only [List.nil_append, List.cons_append, List.cons.injEq] at h
      exact absurd (h.2 ▸ List.mem_append_right c2t (by simp)) hb
  | cons x at2 ih =>
    intro c2 b t2t h hb
    cases c2 with
    | nil => simp
    | cons d c2t =>
      simp only [List.cons_append, List.cons.injEq] at h
      simpa using Nat.succ_le_succ (ih (by rw [h.2]) hb)

/-- Full characterization of a successful `matchBCore`: the input splits as
the host core (with the brackets the group consumed), the `':'` separator,
the path, and a remainder that the dot-capture could not cross. -/
theorem matchBCore_sound {br : Bool} {s1 g p : List Char}
    (hm : matchBCore br s1 = some (g, p)) :
    ∃ core rest,
      core ≠ [] ∧ (∀ c ∈ core, isHostChar c = true) ∧
      ((g = (if br then '[' :: core else core) ∧
          s1 = core ++ ':' :: (p ++ rest)) ∨
       (g = (if br then '[' :: core else core) ++ [']'] ∧
          s1 = core ++ ']' :: ':' :: (p ++ rest))) ∧
      (rest = [] ∨ ∃ r2, rest = '\n' :: r2) ∧ '\n' ∉ p := by
  simp only [matchBCore] at hm
  have hs1 : s1.takeWhile isHostChar ++ s1.dropWhile isHostChar = s1 :=
    List.takeWhile_append_dropWhile _ _
  split at hm
  · cases hm
  · rename_i hne
    split at hm
    · rename_i r heq
      cases hm
      obtain ⟨rest, hr, hnp, hrest⟩ := takeLine_split r
      refine ⟨s1.takeWhile isHostChar, rest, hne, ?_, ?_, hrest, hnp⟩
      · intro c hc
        exact List.mem_takeWhile_imp hc
      · right
        refine ⟨rfl, ?_⟩
        conv_lhs => rw [← hs1, heq]
        rw [← hr]
    · cases hk : findLastColon (s1.takeWhile isHostChar) with
      | none => simp only [hk] at hm; simp at hm
      | some k =>
        simp only [hk] at hm
        split at hm
        · rename_i hk1
          cases hm
          obtain ⟨a, b, hab, hal, hnb⟩ := findLastColon_some hk
          obtain ⟨rest, hr, hnp, hrest⟩ :=
            takeLine_split ((s1.takeWhile isHostChar).drop (k + 1) ++
              s1.dropWhile isHostChar)
          refine ⟨a, rest, ?_, ?_, ?_, hrest, hnp⟩
          · intro he
            rw [he] at hal
            simp at hal
            omega
          · intro c hc
            exact List.mem_takeWhile_imp (hab ▸ List.mem_append_left _ hc)
          · left
            constructor
            · rw [hab, ← hal, List.take_left]
            · have hdrop : (s1.takeWhile isHostChar).drop (k + 1) = b := by
                rw [hab, ← hal]
                have h2 := @List.drop_append _ a (':' :: b) 1
                simpa using h2
              conv_lhs => rw [← hs1, hab]
              rw [← hr, hdrop]
              simp only [List.append_assoc, List.cons_append]
        · simp at hm

/-- Greediness of `matchBCore`: no admissible split of the same input has a
longer host group — equivalently, the committed `':'` separator is the final
admissible one. -/
theorem matchBCore_max {br be2 : Bool} {s1 g p core2 r2 : List Char}
    (hm : matchBCore br s1 = some (g, p))
    (hne2 : core2 ≠ []) (hall : ∀ c ∈ core2, isHostChar c = true)
    (hsp : s1 = core2 ++ (if be2 then [']'] else []) ++ ':' :: r2) :
    core2.length + (if be2 then 1 else 0) + (if br then 1 else 0) ≤ g.length := by
  rw [List.append_assoc] at hsp
  obtain ⟨t2, ht2⟩ := takeWhile_extend (p := isHostChar) hsp hall
  have h0 := List.takeWhile_append_dropWhile isHostChar s1
  rw [ht2] at h0
  nth_rewrite 2 [hsp] at h0
  rw [List.append_assoc] at h0
  have hkey := List.append_cancel_left h0
  have hclen : core2.length + t2.length = (s1.takeWhile isHostChar).length := by
    rw [ht2, List.length_append]
  simp only [matchBCore] at hm
  split at hm
  · simp at hm
  · rename_i hne
    split at hm
    · rename_i r heq
      cases hm
      have hglen : ((if br then '[' :: s1.takeWhile isHostChar
          else s1.takeWhile isHostChar) ++ [']']).length
          = (s1.takeWhile isHostChar).length + 1 + (if br then 1 else 0) := by
        cases br <;> simp
      rw [hglen]
      have hc2 : core2.length ≤ (s1.takeWhile isHostChar).length := by omega
      cases be2 <;> simp <;> omega
    · rename_i hnA
      cases hk : findLastColon (s1.takeWhile isHostChar) with
      | none => simp only [hk] at hm; simp at hm
      | some k =>
        simp only [hk] at hm
        split at hm
        · rename_i hk1
          cases hm
          obtain ⟨a, b, hab, hal, hnb⟩ := findLastColon_some hk
          have htk : ((s1.takeWhile isHostChar).take k).length = k := by
            rw [List.length_take]
            have hkb : k + 1 ≤ (s1.takeWhile isHostChar).length := by
              rw [hab, List.length_append, ← hal]
              simp
            omega
          have hglen : ((if br then '[' :: (s1.takeWhile isHostChar).take k
              else (s1.takeWhile isHostChar).take k)).length
              = k + (if br then 1 else 0) := by
            cases br <;> simp [htk]
          rw [hglen]
          cases be2 with
          | true =>
            simp only [if_pos rfl, List.singleton_append] at hkey
            cases t2 with
            | nil =>
              simp only [List.nil_append] at hkey
              exact (hnA r2 hkey).elim
            | cons d t2t =>
              exfalso
              have hd : d = ']' := by
                simpa using congrArg List.head? hkey
              have hdh : isHostChar d = true := by
                apply List.mem_takeWhile_imp (l := s1)
                rw [ht2]
                exact List.mem_append_right _ (by simp)
              rw [hd] at hdh
              exact absurd hdh (by decide)
          | false =>
            simp only [Bool.false_eq_true, if_false, List.nil_append] at hkey
            cases t2 with
            | nil =>
              simp only [List.nil_append] at hkey
              have hfal := dropWhile_head_false hkey
              exact absurd hfal (by simp [isHostChar, isWordChar])
            | cons d t2t =>
              have hd : d = ':' := by
                simpa using congrArg List.head? hkey
              have hrun : a ++ ':' :: b = core2 ++ ':' :: t2t := by
                rw [← hab, ht2, hd]
              have hle := last_colon_ge hrun hnb
              simp only [Bool.false_eq_true, if_false]
              omega
        · simp at hm

theorem matchB_sound {s g p : List Char} (hm : matchB s = some (g, p)) :
    ∃ rest, s = g ++ ':' :: (p ++ rest) ∧
      (rest = [] ∨ ∃ r2, rest = '\n' :: r2) ∧ hostShapeOf g ∧ '\n' ∉ p := by
  rcases s with _ | ⟨c, s1⟩
  · simp [matchB, matchBCore] at hm
  · by_cases hc : c = '['
    · subst hc
      have hm2 : matchBCore true s1 = some (g, p) := hm
      obtain ⟨core, rest, hcne, hall, hd, hrest, hnp⟩ := matchBCore_sound hm2
      simp only [eq_self_iff_true, if_true] at hd
      rcases hd with ⟨hg, hs⟩ | ⟨hg, hs⟩
      · refine ⟨rest, ?_, hrest, ⟨core, hcne, hall, Or.inr (Or.inl hg)⟩, hnp⟩
        rw [hs, hg]
        simp
      · refine ⟨rest, ?_, hrest,
          ⟨core, hcne, hall, Or.inr (Or.inr (Or.inr (by rw [hg])))⟩, hnp⟩
        rw [hs, hg]
        simp
    · have hm2 : matchBCore false (c :: s1) = some (g, p) := by
        unfold matchB at hm
        split at hm
        · rename_i s1x heq
          cases heq
          exact absurd rfl hc
        · exact hm
      obtain ⟨core, rest, hcne, hall, hd, hrest, hnp⟩ := matchBCore_sound hm2
      simp only [Bool.false_eq_true, if_false] at hd
      rcases hd with ⟨hg, hs⟩ | ⟨hg, hs⟩
      · refine ⟨rest, ?_, hrest, ⟨core, hcne, hall, Or.inl hg⟩, hnp⟩
        rw [hs, hg]
      · refine ⟨rest, ?_, hrest,
          ⟨core, hcne, hall, Or.inr (Or.inr (Or.inl hg))⟩, hnp⟩
        rw [hs, hg]
        simp

theorem matchB_max {s g p g2 r2 : List Char} (hm : matchB s = some (g, p))
    (hsh : hostShapeOf g2) (hsp : s = g2 ++ ':' :: r2) :
    g2.length ≤ g.length := by
  obtain ⟨core2, hne2, hall2, hforms⟩ := hsh
  obtain ⟨d, ct, hdc⟩ : ∃ d ct, core2 = d :: ct := by
    cases core2 with
    | nil => exact absurd rfl hne2
    | cons d ct => exact ⟨d, ct, rfl⟩
  have hdhost : isHostChar d = true := hall2 d (hdc ▸ by simp)
  have hdnb : d ≠ '[' := by
    intro he
    rw [he] at hdhost
    exact absurd hdhost (by decide)
  rcases s with _ | ⟨c, s1⟩
  · simp [matchB, matchBCore] at hm
  · by_cases hc : c = '['
    · subst hc
      have hm2 : matchBCore true s1 = some (g, p) := hm
      rcases hforms with hg2 | hg2 | hg2 | hg2
      · exfalso
        rw [hg2, hdc] at hsp
        simp only [List.cons_append, List.cons.injEq] at hsp
        exact hdnb hsp.1.symm
      · rw [hg2, List.cons_append, List.cons.injEq] at hsp
        have hs1 : s1 = core2 ++ (if false then [']'] else []) ++ ':' :: r2 := by
          simpa using hsp.2
        have := matchBCore_max hm2 hne2 hall2 hs1
        rw [hg2]
        simp only [List.length_cons]
        simpa using this
      · exfalso
        rw [hg2, hdc] at hsp
        simp only [List.cons_append, List.append_assoc, List.cons.injEq] at hsp
        exact hdnb hsp.1.symm
      · rw [hg2] at hsp
        have hs0 : s1 = core2 ++ ([']'] ++ ':' :: r2) := by
          simpa using congrArg List.tail hsp
        have hs1 : s1 = core2 ++ (if true then [']'] else []) ++ ':' :: r2 := by
          rw [hs0]
          simp [List.append_assoc]
        have hb := matchBCore_max hm2 hne2 hall2 hs1
        rw [hg2]
        simp only [List.length_cons, List.length_append, List.length_singleton]
        simpa using hb
    · have hm2 : matchBCore false (c :: s1) = some (g, p) := by
        unfold matchB at hm
        split at hm
        · rename_i s1x heq
          cases heq
          exact absurd rfl hc
        · exact hm
      rcases hforms with hg2 | hg2 | hg2 | hg2
      · rw [hg2] at hsp
        have hs1 : c :: s1 = core2 ++ (if false then [']'] else []) ++ ':' :: r2 := by
          simpa using hsp
        have := matchBCore_max hm2 hne2 hall2 hs1
        rw [hg2]
        simpa using this
      · exfalso
        rw [hg2] at hsp
        simp only [List.cons_append, List.cons.injEq] at hsp
        exact hc hsp.1
      · rw [hg2] at hsp
        have hs1 : c :: s1 = core2 ++ (if true then [']'] else []) ++ ':' :: r2 := by
          simpa [List.append_assoc] using hsp
        have := matchBCore_max hm2 hne2 hall2 hs1
        rw [hg2]
        simp only [List.length_append, List.length_singleton]
        simpa using this
      · exfalso
        rw [hg2] at hsp
        simp only [List.cons_append, List.cons.injEq] at hsp
        exact hc hsp.1

theorem atSuffixes_mem :
    ∀ {l : List Char} {i : Nat} {s : List Char}, s ∈ atSuffixes i l →
      ∃ q, l = q ++ '@' :: s ∧ '\n' ∉ q ∧ (q = [] → 1 ≤ i) := by
  intro l
  induction l with
  | nil => intro i s h; simp [atSuffixes] at h
  | cons c r ih =>
    intro i s h
    simp only [atSuffixes] at h
    split at h
    · simp at h
    · rename_i hcn
      split at h
      · rename_i hat
        rcases List.mem_cons.mp h with h1 | h2
        · subst h1
          exact ⟨[], by simp [hat.1], by simp, fun _ => hat.2⟩
        · obtain ⟨q, hq, hnq, _⟩ := ih h2
          exact ⟨c :: q, by rw [hq]; rfl,
            by simp only [List.mem_cons, not_or]; exact ⟨fun he => hcn he.symm, hnq⟩,
            by simp⟩
      · obtain ⟨q, hq, hnq, _⟩ := ih h
        exact ⟨c :: q, by rw [hq]; rfl,
          by simp only [List.mem_cons, not_or]; exact ⟨fun he => hcn he.symm, hnq⟩,
          by simp⟩

theorem tryCands_sound :
    ∀ {cs : List (List Char)} {m : List Char × List Char},
      tryCands cs = some m → ∃ s ∈ cs, matchB s = some m := by
  intro cs
  induction cs with
  | nil => intro m h; cases h
  | cons s rest ih =>
    intro m h
    simp only [tryCands] at h
    cases hms : matchB s with
    | some m2 =>
      rw [hms] at h
      cases h
      exact ⟨s, by simp, hms⟩
    | none =>
      rw [hms] at h
      obtain ⟨s2, hs2, hm2⟩ := ih h
      exact ⟨s2, by simp [hs2], hm2⟩

/-- Global soundness and greediness of the embedded classifier match: the
input decomposes as an optional user prefix ending in `'@'`, the host group,
the `':'` separator, the path remainder and the rest of the input beyond the
matched line; the host group has the host-token shape, and no admissible
split of the same suffix has a longer host group (the committed separator is
the final admissible one). -/
theorem sshMatch_glob {uri g p : List Char} (hm : sshMatch uri = some (g, p)) :
    ∃ pre rest, uri = pre ++ g ++ ':' :: (p ++ rest) ∧
      (pre = [] ∨ ∃ q, pre = q ++ ['@']) ∧
      (rest = [] ∨ ∃ r2, rest = '\n' :: r2) ∧
      hostShapeOf g ∧ '\n' ∉ p ∧
      (∀ g2 r2, hostShapeOf g2 → g ++ ':' :: (p ++ rest) = g2 ++ ':' :: r2 →
        g2.length ≤ g.length) := by
  unfold sshMatch at hm
  cases ht : tryCands (atSuffixes 0 uri).reverse with
  | some m =>
    rw [ht] at hm
    cases hm
    obtain ⟨s, hs, hms⟩ := tryCands_sound ht
    obtain ⟨q, hq, hnq, _⟩ := atSuffixes_mem (List.mem_reverse.mp hs)
    obtain ⟨rest, hsd, hrest, hshape, hnp⟩ := matchB_sound hms
    refine ⟨q ++ ['@'], rest, ?_, Or.inr ⟨q, rfl⟩, hrest, hshape, hnp, ?_⟩
    · rw [hq, hsd]
      simp
    · intro g2 r2 hsh2 he
      exact matchB_max hms hsh2 (by rw [hsd, he])
  | none =>
    rw [ht] at hm
    obtain ⟨rest, hsd, hrest, hshape, hnp⟩ := matchB_sound hm
    refine ⟨[], rest, by simpa using hsd, Or.inl rfl, hrest, hshape, hnp, ?_⟩
    intro g2 r2 hsh2 he
    exact matchB_max hm hsh2 (by rw [hsd, he])

/-! ## Claims C2, C3 and C8 -/

theorem begins_iff : ∀ {p s : List Char}, begins p s = true ↔ ∃ t, s = p ++ t := by
  intro p
  induction p with
  | nil => intro s; simp [begins]
  | cons a ps ih =>
    intro s
    cases s with
    | nil =>
      simp only [begins, Bool.false_eq_true, false_iff, not_exists]
      intro t h
      cases h
    | cons b ss =>
      simp only [begins, Bool.and_eq_true, decide_eq_true_eq, ih,
        List.cons_append, List.cons.injEq]
      constructor
      · rintro ⟨rfl, t, rfl⟩
        exact ⟨t, rfl, rfl⟩
      · rintro ⟨t, rfl, rfl⟩
        exact ⟨rfl, t, rfl⟩

theorem endsWith_iff {q s : List Char} :
    endsWith q s = true ↔ ∃ t, s = t ++ q := by
  unfold endsWith
  rw [begins_iff]
  constructor
  · rintro ⟨t, ht⟩
    refine ⟨t.reverse, ?_⟩
    have := congrArg List.reverse ht
    simpa [List.reverse_append] using this
  · rintro ⟨t, rfl⟩
    exact ⟨t.reverse, by simp [List.reverse_append]⟩

theorem hostShape_no_newline {g : List Char} (h : hostShapeOf g) : '\n' ∉ g := by
  obtain ⟨core, _, hall, hforms⟩ := h
  have hcore : '\n' ∉ core := by
    intro hmem
    have := hall _ hmem
    exact absurd this (by decide)
  rcases hforms with rfl | rfl | rfl | rfl
  · exact hcore
  · simp only [List.mem_cons, not_or]
    exact ⟨by decide, hcore⟩
  · simp only [List.mem_append, not_or]
    exact ⟨hcore, by simp⟩
  · simp only [List.cons_append, List.mem_cons, List.mem_append, not_or]
    refine ⟨by decide, hcore, by simp⟩

/-- The six explicit scheme markers rejected up front by the classifier. -/
def schemeMarks : List (List Char) :=
  [toL "git://", toL "git+ssh://", toL "git+http://", toL "git+https://",
   toL "http:", toL "https:"]

/-- Spec wording of step 1 of the classifier: the uri begins with none of the
six explicit scheme markers. -/
def specNoScheme (uri : List Char) : Prop :=
  ∀ mark ∈ schemeMarks, ¬∃ t, uri = mark ++ t

theorem specNoScheme_of_conds {uri : List Char}
    (h1 : ¬gitschemes.any (fun scheme => begins (scheme ++ toL "://") uri) = true)
    (h2 : ¬(begins (toL "http:") uri || begins (toL "https:") uri) = true) :
    specNoScheme uri := by
  intro mark hmark hex
  simp only [schemeMarks, List.mem_cons, List.not_mem_nil, or_false] at hmark
  rcases hmark with rfl | rfl | rfl | rfl | rfl | rfl
  · exact h1 (List.any_eq_true.mpr ⟨toL "git", by simp [gitschemes],
      begins_iff.mpr (by simpa using hex)⟩)
  · exact h1 (List.any_eq_true.mpr ⟨toL "git+ssh", by simp [gitschemes],
      begins_iff.mpr (by simpa using hex)⟩)
  · exact h1 (List.any_eq_true.mpr ⟨toL "git+http", by simp [gitschemes],
      begins_iff.mpr (by simpa using hex)⟩)
  · exact h1 (List.any_eq_true.mpr ⟨toL "git+https", by simp [gitschemes],
      begins_iff.mpr (by simpa using hex)⟩)
  · exact h2 (Bool.or_inl (begins_iff.mpr hex))
  · exact h2 (Bool.or_inr (begins_iff.mpr hex))

theorem conds_of_specNoScheme {uri : List Char} (hns : specNoScheme uri) :
    ¬gitschemes.any (fun scheme => begins (scheme ++ toL "://") uri) = true ∧
    ¬(begins (toL "http:") uri || begins (toL "https:") uri) = true := by
  constructor
  · intro h1
    obtain ⟨scheme, hmem, hbeg⟩ := List.any_eq_true.mp h1
    obtain ⟨t, ht⟩ := begins_iff.mp hbeg
    simp only [gitschemes, List.mem_cons, List.not_mem_nil, or_false] at hmem
    rcases hmem with rfl | rfl | rfl | rfl
    · exact hns (toL "git://") (by simp [schemeMarks]) ⟨t, by simpa using ht⟩
    · exact hns (toL "git+ssh://") (by simp [schemeMarks]) ⟨t, by simpa using ht⟩
    · exact hns (toL "git+http://") (by simp [schemeMarks]) ⟨t, by simpa using ht⟩
    · exact hns (toL "git+https://") (by simp [schemeMarks]) ⟨t, by simpa using ht⟩
  · intro h2
    rcases (Bool.or_eq_true _ _).mp h2 with hb | hb
    · exact hns (toL "http:") (by simp [schemeMarks]) (begins_iff.mp hb)
    · exact hns (toL "https:") (by simp [schemeMarks]) (begins_iff.mp hb)

/-- C2: `isgitsshuri` returns true exactly when the uri carries none of the
six explicit scheme markers, the host-path pattern matches (an optional
user prefix ending in `'@'`, a host token of word characters, digits, dots,
colons and hyphens optionally enclosed in brackets, a literal `':'`, an
arbitrary path remainder), and either the path remainder ends with `".git"`
or the host token satisfies the structural FQDN predicate. -/
theorem isgitsshuri_spec (uri : List Char) :
    isgitsshuri uri = true ↔
      (specNoScheme uri ∧
        ∃ g p, sshMatch uri = some (g, p) ∧
          (∃ pre rest, uri = pre ++ (g ++ ':' :: (p ++ rest)) ∧
            (pre = [] ∨ ∃ q, pre = q ++ ['@']) ∧ hostShapeOf g) ∧
          ((∃ t, p = t ++ toL ".git") ∨ SpecFQDN g)) := by
  unfold isgitsshuri
  split
  · rename_i h1
    simp only [Bool.false_eq_true, false_iff]
    rintro ⟨hns, -⟩
    exact (conds_of_specNoScheme hns).1 h1
  · rename_i h1
    split
    · rename_i h2
      simp only [Bool.false_eq_true, false_iff]
      rintro ⟨hns, -⟩
      exact (conds_of_specNoScheme hns).2 h2
    · rename_i h2
      cases hm : sshMatch uri with
      | none =>
        simp only [Bool.false_eq_true, false_iff]
        rintro ⟨-, g, p, hm2, -⟩
        cases hm2
      | some gp =>
        obtain ⟨g0, p0⟩ := gp
        obtain ⟨pre, rest, hu, hpre, hrest, hshape, hnp, hmax⟩ := sshMatch_glob hm
        have hg0nl : '\n' ∉ g0 := hostShape_no_newline hshape
        constructor
        · intro hb
          have hb2 : (endsWith (toL ".git") p0 || fqdn g0) = true := hb
          refine ⟨specNoScheme_of_conds h1 h2, g0, p0, rfl,
            ⟨pre, rest, by rw [hu]; simp, hpre, hshape⟩, ?_⟩
          rcases (Bool.or_eq_true _ _).mp hb2 with he | hf
          · exact Or.inl (endsWith_iff.mp he)
          · exact Or.inr ((fqdn_iff_spec hg0nl).mp hf)
        · rintro ⟨-, g, p, hm2, -, hdisj⟩
          cases hm2
          show (endsWith (toL ".git") p0 || fqdn g0) = true
          rcases hdisj with ⟨t, ht⟩ | hsf
          · exact Bool.or_inl (endsWith_iff.mpr ⟨t, ht⟩)
          · exact Bool.or_inr ((fqdn_iff_spec hg0nl).mpr hsf)

/-- Witness for C2 at a concrete uri exercising both directions of the
equivalence. -/
theorem isgitsshuri_spec_witness :
    specNoScheme (toL "git@github.com:user/repo.git") ∧
      ∃ g p, sshMatch (toL "git@github.com:user/repo.git") = some (g, p) ∧
        (∃ pre rest, toL "git@github.com:user/repo.git"
            = pre ++ (g ++ ':' :: (p ++ rest)) ∧
          (pre = [] ∨ ∃ q, pre = q ++ ['@']) ∧ hostShapeOf g) ∧
        ((∃ t, p = t ++ toL ".git") ∨ SpecFQDN g) :=
  (isgitsshuri_spec (toL "git@github.com:user/repo.git")).mp (by decide)

theorem fqdnBody_head_bad {t : List Char} {c : Char} (hh : t.head? = some c)
    (hc : labelChar c = false) : fqdnBody t = false := by
  rw [fqdnBody_eq]
  cases hs : splitOnce '.' t with
  | none => rfl
  | some ab =>
    obtain ⟨lab, rest⟩ := ab
    obtain ⟨heq, hnd⟩ := splitOnce_some hs
    show (validLabel lab && (isTld rest || fqdnBody rest)) = false
    cases lab with
    | nil =>
      have hv : validLabel [] = false := by decide
      rw [hv]
      rfl
    | cons d labt =>
      have hd : d = c := by
        rw [heq] at hh
        simpa using hh
      have hv : validLabel (d :: labt) = false := by
        subst hd
        simp only [validLabel, List.all_cons, hc]
        simp
      rw [hv]
      rfl

/-- A host token starting with `'['` never satisfies the fqdn regex. -/
theorem fqdn_bracket_false {g : List Char} (hh : g.head? = some '[') :
    fqdn g = false := by
  cases g with
  | nil => cases hh
  | cons c gt =>
  have hc : c = '[' := by simpa using hh
  subst hc
  unfold fqdn
  split
  · rename_i hlast
    cases gt with
    | nil => exact absurd hlast (by decide)
    | cons b bt =>
      have hdl : ('[' :: b :: bt).dropLast = '[' :: (b :: bt).dropLast := rfl
      rw [hdl]
      have hb := fqdnBody_head_bad (t := '[' :: (b :: bt).dropLast) rfl (by decide)
      simp [hb]
  · have hb := fqdnBody_head_bad (t := '[' :: gt) rfl (by decide)
    simp [hb]

/-- C3: the bracketed-IPv6 doctest is accepted, and in general any uri whose
matched host token starts with `'['` and whose path remainder does not end
in `".git"` is classified false — a bracketed token is accepted only via the
`.git` branch, never via the FQDN branch. -/
theorem bracket_host_spec :
    isgitsshuri (toL "git@[2001:db8::1]:repository.git") = true ∧
    (∀ uri g p, sshMatch uri = some (g, p) → g.head? = some '[' →
      endsWith (toL ".git") p = false → isgitsshuri uri = false) := by
  constructor
  · decide
  · intro uri g p hm hh hend
    unfold isgitsshuri
    split
    · rfl
    · split
      · rfl
      · rw [hm]
        show (endsWith (toL ".git") p || fqdn g) = false
        rw [hend, fqdn_bracket_false hh]
        rfl

/-- Witness for C3: the universal half applied at the concrete bracketed
uri without a `.git` suffix. -/
theorem bracket_host_spec_witness :
    isgitsshuri (toL "[2001:db8::1]:repo") = false :=
  bracket_host_spec.2 (toL "[2001:db8::1]:repo") (toL "[2001:db8::1]")
    (toL "repo") (by decide) (by decide) (by decide)

/-- C8: whenever the classifier's host-path pattern matches a uri that
passed the scheme check, the input reconstructs as the optional user prefix
(empty or ending in `'@'`), then HostToken, `':'`, PathToken, then the
unmatched remainder (empty or starting at a newline) — so HostToken, `':'`
and PathToken together rebuild the matched portion after the user prefix —
and the separator committed to is the final admissible one: no admissible
host token extending past it exists (greedy backtracking). -/
theorem hostToken_spec (uri g p : List Char) (hns : specNoScheme uri)
    (hm : sshMatch uri = some (g, p)) :
    ∃ pre rest, uri = pre ++ (g ++ ':' :: (p ++ rest)) ∧
      (pre = [] ∨ ∃ q, pre = q ++ ['@']) ∧
      (rest = [] ∨ ∃ r2, rest = '
' :: r2) ∧
      (∀ g2 r2, hostShapeOf g2 → g ++ ':' :: (p ++ rest) = g2 ++ ':' :: r2 →
        g2.length ≤ g.length) := by
  obtain ⟨pre, rest, hu, hpre, hrest, _, _, hmax⟩ := sshMatch_glob hm
  exact ⟨pre, rest, by rw [hu]; simp, hpre, hrest, hmax⟩

/-- Witness for C8 at a concrete uri with a user prefix. -/
theorem hostToken_spec_witness :
    ∃ pre rest, toL "git@github.com:x.git"
        = pre ++ (toL "github.com" ++ ':' :: (toL "x.git" ++ rest)) ∧
      (pre = [] ∨ ∃ q, pre = q ++ ['@']) ∧
      (rest = [] ∨ ∃ r2, rest = '
' :: r2) ∧
      (∀ g2 r2, hostShapeOf g2 →
        toL "github.com" ++ ':' :: (toL "x.git" ++ rest) = g2 ++ ':' :: r2 →
        g2.length ≤ (toL "github.com").length) :=
  hostToken_spec (toL "git@github.com:x.git") (toL "github.com") (toL "x.git")
    (specNoScheme_of_conds (by decide) (by decide)) (by decide)

/-! ## UTF-8 interchange encoding

`str.encode('utf-8')` / `bytes.decode('utf-8')` are modelled by a standard
UTF-8 encoder on unicode scalar values and a validating decoder (rejecting
continuation-byte errors, overlong forms, surrogates and values beyond
U+10FFFF, as CPython does). -/

/-- UTF-8 encoding of one unicode scalar value. -/
def utf8EncodeChar (c : Char) : List Nat :=
  let n := c.toNat
  if n < 0x80 then [n]
  else if n < 0x800 then [0xC0 + n / 0x40, 0x80 + n % 0x40]
  else if n < 0x10000 then
    [0xE0 + n / 0x1000, 0x80 + n / 0x40 % 0x40, 0x80 + n % 0x40]
  else
    [0xF0 + n / 0x40000, 0x80 + n / 0x1000 % 0x40, 0x80 + n / 0x40 % 0x40,
     0x80 + n % 0x40]

/-- Models `s.encode('utf-8')`. -/
def utf8Encode : List Char → List Nat
  | [] => []
  | c :: r => utf8EncodeChar c ++ utf8Encode r

/-- A UTF-8 continuation byte. -/
def isCont (b : Nat) : Bool := 0x80 ≤ b && b < 0xC0

/-- One step of the validating UTF-8 decoder: decode the scalar introduced
by lead byte `b`, returning it with the unconsumed bytes; `none` is a decode
error (bad lead, bad continuation, overlong form, surrogate, out of range,
or truncated sequence). -/
def utf8DecodeOne (b : Nat) (rest : List Nat) : Option (Nat × List Nat) :=
  if b < 0x80 then some (b, rest)
  else if b < 0xC2 then none
  else if b < 0xE0 then
    match rest with
    | b1 :: r =>
      if isCont b1 then some ((b - 0xC0) * 0x40 + (b1 - 0x80), r) else none
    | [] => none
  else if b < 0xF0 then
    match rest with
    | b1 :: b2 :: r =>
      if isCont b1 && isCont b2 &&
          decide (0x800 ≤ (b - 0xE0) * 0x1000 + (b1 - 0x80) * 0x40 + (b2 - 0x80)) &&
          !(decide (0xD800 ≤ (b - 0xE0) * 0x1000 + (b1 - 0x80) * 0x40 + (b2 - 0x80)) &&
            decide ((b - 0xE0) * 0x1000 + (b1 - 0x80) * 0x40 + (b2 - 0x80) < 0xE000)) then
        some ((b - 0xE0) * 0x1000 + (b1 - 0x80) * 0x40 + (b2 - 0x80), r)
      else none
    | _ => none
  else if b < 0xF5 then
    match rest with
    | b1 :: b2 :: b3 :: r =>
      if isCont b1 && isCont b2 && isCont b3 &&
          decide (0x10000 ≤ (b - 0xF0) * 0x40000 + (b1 - 0x80) * 0x1000 +
            (b2 - 0x80) * 0x40 + (b3 - 0x80)) &&
          decide ((b - 0xF0) * 0x40000 + (b1 - 0x80) * 0x1000 +
            (b2 - 0x80) * 0x40 + (b3 - 0x80) ≤ 0x10FFFF) then
        some ((b - 0xF0) * 0x40000 + (b1 - 0x80) * 0x1000 +
          (b2 - 0x80) * 0x40 + (b3 - 0x80), r)
      else none
    | _ => none
  else none

/-- Fuel-indexed worker for `utf8Decode`; the fuel only serves structural
termination and never runs out when it starts at the byte count. -/
def utf8DecodeF : Nat → List Nat → Option (List Char)
  | _, [] => some []
  | 0, _ :: _ => none
  | fuel + 1, b :: rest =>
    match utf8DecodeOne b rest with
    | some (n, r) => (utf8DecodeF fuel r).map (fun s => Char.ofNat n :: s)
    | none => none

/-- Models `b.decode('utf-8')`: validating UTF-8 decoder; `none` is the
`UnicodeDecodeError` case. -/
def utf8Decode (l : List Nat) : Option (List Char) := utf8DecodeF l.length l

theorem utf8DecodeOne_length {b n : Nat} {rest r : List Nat}
    (h : utf8DecodeOne b rest = some (n, r)) : r.length ≤ rest.length := by
  unfold utf8DecodeOne at h
  split at h
  · cases h
    exact Nat.le_refl _
  · split at h
    · cases h
    · split at h
      · split at h
        · split at h
          · cases h
            simp
          · cases h
        · cases h
      · split at h
        · split at h
          · split at h
            · cases h
              simp
              omega
            · cases h
          · cases h
        · split at h
          · split at h
            · split at h
              · cases h
                simp
                omega
              · cases h
            · cases h
          · cases h

theorem utf8DecodeF_stable :
    ∀ {f1 f2 : Nat} {l : List Nat}, l.length ≤ f1 → l.length ≤ f2 →
      utf8DecodeF f1 l = utf8DecodeF f2 l := by
  intro f1
  induction f1 with
  | zero =>
    intro f2 l h1 _
    have : l = [] := List.length_eq_zero.mp (Nat.le_zero.mp h1)
    subst this
    cases f2 <;> rfl
  | succ f ih =>
    intro f2 l h1 h2
    cases l with
    | nil => cases f2 <;> rfl
    | cons b rest =>
      cases f2 with
      | zero => simp at h2
      | succ g =>
        show (match utf8DecodeOne b rest with
            | some (n, r) => (utf8DecodeF f r).map (fun s => Char.ofNat n :: s)
            | none => none) =
          (match utf8DecodeOne b rest with
            | some (n, r) => (utf8DecodeF g r).map (fun s => Char.ofNat n :: s)
            | none => none)
        cases hone : utf8DecodeOne b rest with
        | none => rfl
        | some nr =>
          obtain ⟨n, r⟩ := nr
          have hlen := utf8DecodeOne_length hone
          simp only [List.length_cons] at h1 h2
          dsimp only
          rw [ih (show r.length ≤ f by omega) (show r.length ≤ g by omega)]

/-- One-step unfolding of the decoder. -/
theorem utf8Decode_cons (b : Nat) (rest : List Nat) :
    utf8Decode (b :: rest) =
      match utf8DecodeOne b rest with
      | some (n, r) => (utf8Decode r).map (fun s => Char.ofNat n :: s)
      | none => none := by
  show utf8DecodeF (rest.length + 1) (b :: rest) = _
  show (match utf8DecodeOne b rest with
      | some (n, r) => (utf8DecodeF rest.length r).map (fun s => Char.ofNat n :: s)
      | none => none) = _
  cases hone : utf8DecodeOne b rest with
  | none => rfl
  | some nr =>
    obtain ⟨n, r⟩ := nr
    have hlen := utf8DecodeOne_length hone
    dsimp only
    rw [utf8DecodeF_stable hlen (Nat.le_refl _)]
    rfl

/-- Truth of the 3-byte decoder guard from arithmetic bounds. -/
theorem utf8Guard3 {x y n : Nat} (hx1 : 0x80 ≤ x) (hx2 : x < 0xC0)
    (hy1 : 0x80 ≤ y) (hy2 : y < 0xC0) (hn : 0x800 ≤ n)
    (hs : ¬(0xD800 ≤ n ∧ n < 0xE000)) :
    (isCont x && isCont y && decide (0x800 ≤ n) &&
      !(decide (0xD800 ≤ n) && decide (n < 0xE000))) = true := by
  have h1 : isCont x = true := by
    simp only [isCont, Bool.and_eq_true, decide_eq_true_eq]
    omega
  have h2 : isCont y = true := by
    simp only [isCont, Bool.and_eq_true, decide_eq_true_eq]
    omega
  have h3 : decide (0x800 ≤ n) = true := by simp [hn]
  have h4 : (decide (0xD800 ≤ n) && decide (n < 0xE000)) = false := by
    by_cases hd : 0xD800 ≤ n
    · have hlt : ¬(n < 0xE000) := fun hlt => hs ⟨hd, hlt⟩
      simp [hlt]
    · simp [hd]
  rw [h1, h2, h3, h4]
  rfl

/-- Truth of the 4-byte decoder guard from arithmetic bounds. -/
theorem utf8Guard4 {x y z n : Nat} (hx1 : 0x80 ≤ x) (hx2 : x < 0xC0)
    (hy1 : 0x80 ≤ y) (hy2 : y < 0xC0) (hz1 : 0x80 ≤ z) (hz2 : z < 0xC0)
    (hn1 : 0x10000 ≤ n) (hn2 : n ≤ 0x10FFFF) :
    (isCont x && isCont y && isCont z && decide (0x10000 ≤ n) &&
      decide (n ≤ 0x10FFFF)) = true := by
  have h1 : isCont x = true := by
    simp only [isCont, Bool.and_eq_true, decide_eq_true_eq]
    omega
  have h2 : isCont y = true := by
    simp only [isCont, Bool.and_eq_true, decide_eq_true_eq]
    omega
  have h3 : isCont z = true := by
    simp only [isCont, Bool.and_eq_true, decide_eq_true_eq]
    omega
  rw [h1, h2, h3]
  simp [hn1, hn2]

theorem char_toNat_valid (c : Char) :
    c.toNat < 0xD800 ∨ (0xE000 ≤ c.toNat ∧ c.toNat < 0x110000) := by
  have h := c.valid
  rcases h with h | h
  · left
    exact h
  · right
    exact ⟨h.1, h.2⟩

/-- Decoding one encoded character recovers its scalar value. -/
theorem utf8DecodeOne_encodeChar (c : Char) (rest : List Nat) :
    ∃ b tail, utf8EncodeChar c = b :: tail ∧
      utf8DecodeOne b (tail ++ rest) = some (c.toNat, rest) := by
  have hval := char_toNat_valid c
  by_cases h1 : c.toNat < 0x80
  · refine ⟨c.toNat, [], by unfold utf8EncodeChar; rw [if_pos h1], ?_⟩
    unfold utf8DecodeOne
    rw [if_pos h1]
    rfl
  · by_cases h2 : c.toNat < 0x800
    · refine ⟨0xC0 + c.toNat / 0x40, [0x80 + c.toNat % 0x40], by
        unfold utf8EncodeChar; rw [if_neg h1, if_pos h2], ?_⟩
      have hb1 : ¬(0xC0 + c.toNat / 0x40 < 0x80) := by omega
      have hb2 : ¬(0xC0 + c.toNat / 0x40 < 0xC2) := by omega
      have hb3 : 0xC0 + c.toNat / 0x40 < 0xE0 := by omega
      unfold utf8DecodeOne
      rw [if_neg hb1, if_neg hb2, if_pos hb3]
      show (if isCont (0x80 + c.toNat % 0x40) then
          some ((0xC0 + c.toNat / 0x40 - 0xC0) * 0x40 + (0x80 + c.toNat % 0x40 - 0x80), rest)
        else none) = some (c.toNat, rest)
      rw [if_pos (by simp only [isCont, Bool.and_eq_true, decide_eq_true_eq]; omega)]
      congr 2
      omega
    · by_cases h3 : c.toNat < 0x10000
      · refine ⟨0xE0 + c.toNat / 0x1000,
          [0x80 + c.toNat / 0x40 % 0x40, 0x80 + c.toNat % 0x40], by
          unfold utf8EncodeChar; rw [if_neg h1, if_neg h2, if_pos h3], ?_⟩
        have hb1 : ¬(0xE0 + c.toNat / 0x1000 < 0x80) := by omega
        have hb2 : ¬(0xE0 + c.toNat / 0x1000 < 0xC2) := by omega
        have hb3 : ¬(0xE0 + c.toNat / 0x1000 < 0xE0) := by omega
        have hb4 : 0xE0 + c.toNat / 0x1000 < 0xF0 := by omega
        unfold utf8DecodeOne
        rw [if_neg hb1, if_neg hb2, if_neg hb3, if_pos hb4]
        simp only [List.cons_append, List.nil_append]
        have hsur : ¬(0xD800 ≤ c.toNat ∧ c.toNat < 0xE000) := by
          rcases hval with h | h <;> omega
        rw [if_pos (utf8Guard3 (by omega) (by omega) (by omega) (by omega)
          (by omega) (by rcases hval with h | h <;> omega))]
        have harith : (0xE0 + c.toNat / 0x1000 - 0xE0) * 0x1000 +
            (0x80 + c.toNat / 0x40 % 0x40 - 0x80) * 0x40 +
            (0x80 + c.toNat % 0x40 - 0x80) = c.toNat := by omega
        rw [harith]
      · have h4 : c.toNat < 0x110000 := by rcases hval with h | h <;> omega
        refine ⟨0xF0 + c.toNat / 0x40000,
          [0x80 + c.toNat / 0x1000 % 0x40, 0x80 + c.toNat / 0x40 % 0x40,
           0x80 + c.toNat % 0x40], by
          unfold utf8EncodeChar; rw [if_neg h1, if_neg h2, if_neg h3], ?_⟩
        have hb1 : ¬(0xF0 + c.toNat / 0x40000 < 0x80) := by omega
        have hb2 : ¬(0xF0 + c.toNat / 0x40000 < 0xC2) := by omega
        have hb3 : ¬(0xF0 + c.toNat / 0x40000 < 0xE0) := by omega
        have hb4 : ¬(0xF0 + c.toNat / 0x40000 < 0xF0) := by omega
        have hb5 : 0xF0 + c.toNat / 0x40000 < 0xF5 := by omega
        unfold utf8DecodeOne
        rw [if_neg hb1, if_neg hb2, if_neg hb3, if_neg hb4, if_pos hb5]
        simp only [List.cons_append, List.nil_append]
        rw [if_pos (utf8Guard4 (by omega) (by omega) (by omega) (by omega)
          (by omega) (by omega) (by omega) (by omega))]
        have harith : (0xF0 + c.toNat / 0x40000 - 0xF0) * 0x40000 +
            (0x80 + c.toNat / 0x1000 % 0x40 - 0x80) * 0x1000 +
            (0x80 + c.toNat / 0x40 % 0x40 - 0x80) * 0x40 +
            (0x80 + c.toNat % 0x40 - 0x80) = c.toNat := by omega
        rw [harith]

/-- Decoding inverts encoding one character at a time. -/
theorem utf8Decode_encodeChar (c : Char) (rest : List Nat) :
    utf8Decode (utf8EncodeChar c ++ rest)
      = (utf8Decode rest).map (fun s => c :: s) := by
  obtain ⟨b, tail, henc, hone⟩ := utf8DecodeOne_encodeChar c rest
  rw [henc, List.cons_append, utf8Decode_cons, hone]
  dsimp only
  rw [Char.ofNat_toNat]

/-- Round trip: decoding an encoded text restores it. -/
theorem utf8Decode_encode (s : List Char) :
    utf8Decode (utf8Encode s) = some s := by
  induction s with
  | nil => rfl
  | cons c r ih =>
    show utf8Decode (utf8EncodeChar c ++ utf8Encode r) = _
    rw [utf8Decode_encodeChar, ih]
    rfl

example : utf8Encode (toL "é") = [0xC3, 0xA9] := by decide
example : utf8Decode [0xC3, 0xA9] = some (toL "é") := by decide
example : utf8Decode [0xFF] = none := by decide
example : utf8Decode [98] = some ['b'] := by decide

/-! ## convert (src/hggit/util.py lines 172-185)

```python
def convert(data, frm=str, to=bytes):
    if isinstance(data, frm):
        return to(data, 'utf-8')
    if isinstance(data, dict):
        return dict(map(convert, data.items()))
    if isinstance(data, tuple):
        return tuple(map(convert, data))
    if isinstance(data, list):
        return list(map(convert, data))
    return data
```

Values are modelled by `PyVal` over the kinds the claims quantify over
(string-like scalars, mappings, tuples and lists); a mapping is its
insertion-ordered entry list with Python-`dict` construction semantics
(update in place on an existing key, append otherwise; key comparison is
structural equality, which agrees with Python `==` on these kinds).

The recursive calls in the source pass no `frm`/`to`, so they run with the
DEFAULT kinds `str`→`bytes` regardless of the outer call's kinds; the
embedding reproduces this faithfully.  `to(data, 'utf-8')` is UTF-8
encoding for `to=bytes` on a text value, UTF-8 decoding for `to=str` on a
byte value (raising `UnicodeDecodeError`, modelled `none`, on invalid
bytes), and a `TypeError` (also modelled `none`) on the remaining
kind combinations, exactly as in CPython. -/

inductive PyVal where
  | str (s : List Char)
  | bytes (b : List Nat)
  | dict (l : List (PyVal × PyVal))
  | tuple (l : List PyVal)
  | list (l : List PyVal)

mutual

def eqV : PyVal → PyVal → Bool
  | .str a, .str b => a = b
  | .bytes a, .bytes b => a = b
  | .dict a, .dict b => eqPairs a b
  | .tuple a, .tuple b => eqList a b
  | .list a, .list b => eqList a b
  | _, _ => false

def eqList : List PyVal → List PyVal → Bool
  | [], [] => true
  | a :: r1, b :: r2 => eqV a b && eqList r1 r2
  | _, _ => false

def eqPairs : List (PyVal × PyVal) → List (PyVal × PyVal) → Bool
  | [], [] => true
  | (k1, v1) :: r1, (k2, v2) :: r2 => eqV k1 k2 && eqV v1 v2 && eqPairs r1 r2
  | _, _ => false

end

mutual

theorem eqV_iff : ∀ a b : PyVal, eqV a b = true ↔ a = b
  | .str a, .str b => by simp [eqV]
  | .str a, .bytes b => by simp [eqV]
  | .str a, .dict b => by simp [eqV]
  | .str a, .tuple b => by simp [eqV]
  | .str a, .list b => by simp [eqV]
  | .bytes a, .str b => by simp [eqV]
  | .bytes a, .bytes b => by simp [eqV]
  | .bytes a, .dict b => by simp [eqV]
  | .bytes a, .tuple b => by simp [eqV]
  | .bytes a, .list b => by simp [eqV]
  | .dict a, .str b => by simp [eqV]
  | .dict a, .bytes b => by simp [eqV]
  | .dict a, .dict b => by simp [eqV, eqPairs_iff a b]
  | .dict a, .tuple b => by simp [eqV]
  | .dict a, .list b => by simp [eqV]
  | .tuple a, .str b => by simp [eqV]
  | .tuple a, .bytes b => by simp [eqV]
  | .tuple a, .dict b => by simp [eqV]
  | .tuple a, .tuple b => by simp [eqV, eqList_iff a b]
  | .tuple a, .list b => by simp [eqV]
  | .list a, .str b => by simp [eqV]
  | .list a, .bytes b => by simp [eqV]
  | .list a, .dict b => by simp [eqV]
  | .list a, .tuple b => by simp [eqV]
  | .list a, .list b => by simp [eqV, eqList_iff a b]

theorem eqList_iff : ∀ a b : List PyVal, eqList a b = true ↔ a = b
  | [], [] => by simp [eqList]
  | [], _ :: _ => by simp [eqList]
  | _ :: _, [] => by simp [eqList]
  | a :: r1, b :: r2 => by simp [eqList, eqV_iff a b, eqList_iff r1 r2]

theorem eqPairs_iff :
    ∀ a b : List (PyVal × PyVal), eqPairs a b = true ↔ a = b
  | [], [] => by simp [eqPairs]
  | [], _ :: _ => by simp [eqPairs]
  | _ :: _, [] => by simp [eqPairs]
  | (k1, v1) :: r1, (k2, v2) :: r2 => by
    simp [eqPairs, eqV_iff k1 k2, eqV_iff v1 v2, eqPairs_iff r1 r2,
      Prod.ext_iff, and_assoc]

end

instance : DecidableEq PyVal :=
  fun a b => decidable_of_iff (eqV a b = true) (eqV_iff a b)

/-- The two scalar kinds `convert` can be pointed at. -/
inductive Kind where
  | str
  | bytes
deriving DecidableEq

/-- Models `isinstance(data, frm)` for the scalar kinds. -/
def matchesKind : PyVal → Kind → Bool
  | .str _, .str => true
  | .bytes _, .bytes => true
  | _, _ => false

/-- Models `to(data, 'utf-8')` on a value whose kind matched `frm`. -/
def coerceTo : Kind → PyVal → Option PyVal
  | .bytes, .str s => some (.bytes (utf8Encode s))
  | .str, .bytes b => (utf8Decode b).map .str
  | _, _ => none

/-- Python `dict` update: an existing key keeps its position and takes the
new value; a new key is appended. -/
def updEntry : List (PyVal × PyVal) → PyVal → PyVal → List (PyVal × PyVal)
  | [], k, v => [(k, v)]
  | (k0, v0) :: r, k, v =>
    if k0 = k then (k0, v) :: r else (k0, v0) :: updEntry r k v

/-- Models the `dict(pairs)` constructor (last value wins, first position
kept). -/
def dictMk (l : List (PyVal × PyVal)) : List (PyVal × PyVal) :=
  l.foldl (fun acc kv => updEntry acc kv.1 kv.2) []

mutual

def convert (frm toK : Kind) : PyVal → Option PyVal
  | .str s =>
    if matchesKind (.str s) frm then coerceTo toK (.str s) else some (.str s)
  | .bytes b =>
    if matchesKind (.bytes b) frm then coerceTo toK (.bytes b) else some (.bytes b)
  | .dict l => (convertPairs l).map (fun l2 => .dict (dictMk l2))
  | .tuple l => (convertList l).map .tuple
  | .list l => (convertList l).map .list

def convertList : List PyVal → Option (List PyVal)
  | [] => some []
  | v :: r =>
    match convert Kind.str Kind.bytes v, convertList r with
    | some w, some ws => some (w :: ws)
    | _, _ => none

def convertPairs : List (PyVal × PyVal) → Option (List (PyVal × PyVal))
  | [] => some []
  | (k, v) :: r =>
    match convert Kind.str Kind.bytes k, convert Kind.str Kind.bytes v,
        convertPairs r with
    | some k2, some v2, some r2 => some ((k2, v2) :: r2)
    | _, _, _ => none

end

example :
    convert Kind.str Kind.bytes (.dict [(.str ['a'], .str ['x'])])
      = some (.dict [(.bytes [97], .bytes [120])]) := by decide
example :
    convert Kind.bytes Kind.str (.dict [(.bytes [97], .bytes [98])])
      = some (.dict [(.bytes [97], .bytes [98])]) := by decide
example :
    convert Kind.bytes Kind.str (.bytes [98]) = some (.str ['b']) := by decide
example :
    convert Kind.str Kind.bytes
        (.dict [(.str ['a'], .str ['x']), (.bytes [97], .str ['y'])])
      = some (.dict [(.bytes [97], .bytes [121])]) := by decide

/-! ## Spec-side normalizer at the default kinds, and dict lemmas -/

mutual

/-- The text→bytes normalization that the recursive calls of `convert`
actually perform (spec-side comparator for the refinement claims). -/
def normStrBytes : PyVal → PyVal
  | .str s => .bytes (utf8Encode s)
  | .bytes b => .bytes b
  | .dict l => .dict (dictMk (normPairs l))
  | .tuple l => .tuple (normList l)
  | .list l => .list (normList l)

def normList : List PyVal → List PyVal
  | [] => []
  | v :: r => normStrBytes v :: normList r

def normPairs : List (PyVal × PyVal) → List (PyVal × PyVal)
  | [] => []
  | (k, v) :: r => (normStrBytes k, normStrBytes v) :: normPairs r

end

mutual

theorem convert_default_eq :
    ∀ v, convert Kind.str Kind.bytes v = some (normStrBytes v)
  | .str s => by simp [convert, matchesKind, coerceTo, normStrBytes]
  | .bytes b => by simp [convert, matchesKind, normStrBytes]
  | .dict l => by
    simp only [convert, convertPairs_eq l, normStrBytes]
    rfl
  | .tuple l => by
    simp only [convert, convertList_eq l, normStrBytes]
    rfl
  | .list l => by
    simp only [convert, convertList_eq l, normStrBytes]
    rfl

theorem convertList_eq : ∀ l, convertList l = some (normList l)
  | [] => rfl
  | v :: r => by
    simp only [convertList, convert_default_eq v, convertList_eq r, normList]

theorem convertPairs_eq : ∀ l, convertPairs l = some (normPairs l)
  | [] => rfl
  | (k, v) :: r => by
    simp only [convertPairs, convert_default_eq k, convert_default_eq v,
      convertPairs_eq r, normPairs]

end

theorem normList_eq_map : ∀ l, normList l = l.map normStrBytes
  | [] => rfl
  | v :: r => by simp [normList, normList_eq_map r]

theorem normPairs_eq_map :
    ∀ l, normPairs l = l.map (fun kv => (normStrBytes kv.1, normStrBytes kv.2))
  | [] => rfl
  | (k, v) :: r => by simp [normPairs, normPairs_eq_map r]

/-- Key multiset of an update: unchanged on a present key, appended on a
fresh one. -/
theorem updEntry_keys (acc : List (PyVal × PyVal)) (k v : PyVal) :
    (updEntry acc k v).map Prod.fst
      = if k ∈ acc.map Prod.fst then acc.map Prod.fst
        else acc.map Prod.fst ++ [k] := by
  induction acc with
  | nil => simp [updEntry]
  | cons kv0 r ih =>
    obtain ⟨k0, v0⟩ := kv0
    simp only [updEntry, List.map_cons, List.mem_cons]
    by_cases hk : k0 = k
    · subst hk
      simp
    · rw [if_neg hk]
      simp only [List.map_cons, ih]
      by_cases hmem : k ∈ r.map Prod.fst
      · rw [if_pos hmem, if_pos (Or.inr hmem)]
      · rw [if_neg hmem, if_neg (by
          rintro (h | h)
          · exact hk h.symm
          · exact hmem h)]
        simp

theorem updEntry_notmem {acc : List (PyVal × PyVal)} {k : PyVal} (v : PyVal)
    (h : k ∉ acc.map Prod.fst) : updEntry acc k v = acc ++ [(k, v)] := by
  induction acc with
  | nil => rfl
  | cons kv0 r ih =>
    obtain ⟨k0, v0⟩ := kv0
    simp only [List.map_cons, List.mem_cons, not_or] at h
    have hne : ¬(k0 = k) := fun he => h.1 he.symm
    simp only [updEntry, if_neg hne, List.cons_append, ih h.2]

theorem updEntry_mem {acc : List (PyVal × PyVal)} {k v : PyVal}
    {kv : PyVal × PyVal} (h : kv ∈ updEntry acc k v) :
    kv ∈ acc ∨ kv = (k, v) := by
  induction acc with
  | nil => simpa [updEntry] using h
  | cons kv0 r ih =>
    obtain ⟨k0, v0⟩ := kv0
    simp only [updEntry] at h
    split at h
    · rename_i he
      rcases List.mem_cons.mp h with h1 | h1
      · right
        rw [h1, he]
      · exact Or.inl (List.mem_cons_of_mem _ h1)
    · rcases List.mem_cons.mp h with h1 | h1
      · exact Or.inl (by simp [h1])
      · rcases ih h1 with h2 | h2
        · exact Or.inl (List.mem_cons_of_mem _ h2)
        · exact Or.inr h2

/-- Pairwise-distinct keys, as a computable check. -/
def keysDistinct : List PyVal → Bool
  | [] => true
  | k :: r => decide (k ∉ r) && keysDistinct r

theorem dictMk_go_nodup :
    ∀ {l : List (PyVal × PyVal)} (acc : List (PyVal × PyVal)),
      keysDistinct (l.map Prod.fst) = true →
      (∀ kv ∈ l, kv.1 ∉ acc.map Prod.fst) →
      l.foldl (fun acc kv => updEntry acc kv.1 kv.2) acc = acc ++ l := by
  intro l
  induction l with
  | nil => intro acc _ _; simp
  | cons kv r ih =>
    intro acc hd hdis
    obtain ⟨k, v⟩ := kv
    simp only [List.map_cons, keysDistinct, Bool.and_eq_true,
      decide_eq_true_eq] at hd
    simp only [List.foldl_cons]
    rw [updEntry_notmem v (hdis (k, v) (by simp))]
    rw [ih (acc ++ [(k, v)]) hd.2 ?h2]
    · simp
    case h2 =>
      intro kv2 hkv2
      simp only [List.map_append, List.mem_append, List.map_cons,
        List.map_nil, List.mem_singleton, not_or]
      refine ⟨hdis kv2 (List.mem_cons_of_mem _ hkv2), ?_⟩
      intro he
      exact hd.1 (he ▸ List.mem_map_of_mem Prod.fst hkv2)

/-- `dict(pairs)` keeps the pairs untouched when the keys are pairwise
distinct. -/
theorem dictMk_nodup {l : List (PyVal × PyVal)}
    (h : keysDistinct (l.map Prod.fst) = true) : dictMk l = l := by
  unfold dictMk
  rw [dictMk_go_nodup [] h (by simp)]
  simp

theorem dictMk_mem_subset :
    ∀ {l acc : List (PyVal × PyVal)} {kv : PyVal × PyVal},
      kv ∈ l.foldl (fun acc kv => updEntry acc kv.1 kv.2) acc →
      kv ∈ acc ∨ kv ∈ l := by
  intro l
  induction l with
  | nil => intro acc kv h; exact Or.inl h
  | cons kv0 r ih =>
    intro acc kv h
    obtain ⟨k, v⟩ := kv0
    simp only [List.foldl_cons] at h
    rcases ih h with h1 | h1
    · rcases updEntry_mem h1 with h2 | h2
      · exact Or.inl h2
      · exact Or.inr (by simp [h2])
    · exact Or.inr (List.mem_cons_of_mem _ h1)

theorem keysDistinct_append_one {ks : List PyVal} {k : PyVal}
    (h : keysDistinct ks = true) (hk : k ∉ ks) :
    keysDistinct (ks ++ [k]) = true := by
  induction ks with
  | nil => simp [keysDistinct]
  | cons a r ih =>
    simp only [keysDistinct, Bool.and_eq_true, decide_eq_true_eq] at h
    simp only [List.mem_cons, not_or] at hk
    simp only [List.cons_append, keysDistinct, Bool.and_eq_true,
      decide_eq_true_eq]
    refine ⟨?_, ih h.2 hk.2⟩
    intro hmem
    rcases List.mem_append.mp hmem with h1 | h1
    · exact h.1 h1
    · exact hk.1 (List.mem_singleton.mp h1).symm

theorem dictMk_go_keysDistinct :
    ∀ {l acc : List (PyVal × PyVal)},
      keysDistinct (acc.map Prod.fst) = true →
      keysDistinct
        ((l.foldl (fun acc kv => updEntry acc kv.1 kv.2) acc).map Prod.fst)
        = true := by
  intro l
  induction l with
  | nil => intro acc h; exact h
  | cons kv0 r ih =>
    intro acc h
    obtain ⟨k, v⟩ := kv0
    simp only [List.foldl_cons]
    apply ih
    rw [updEntry_keys]
    by_cases hmem : k ∈ acc.map Prod.fst
    · rw [if_pos hmem]
      exact h
    · rw [if_neg hmem]
      exact keysDistinct_append_one h hmem

/-- The keys of a constructed dict are pairwise distinct. -/
theorem dictMk_keysDistinct (l : List (PyVal × PyVal)) :
    keysDistinct ((dictMk l).map Prod.fst) = true :=
  dictMk_go_keysDistinct (by rfl)

theorem dictMk_mem {x : List (PyVal × PyVal)} {kv : PyVal × PyVal}
    (h : kv ∈ dictMk x) : kv ∈ x := by
  rcases dictMk_mem_subset h with h1 | h1
  · cases h1
  · exact h1

theorem normPairs_mem :
    ∀ {l : List (PyVal × PyVal)} {kv : PyVal × PyVal}, kv ∈ normPairs l →
      ∃ kv0, kv0 ∈ l ∧ kv = (normStrBytes kv0.1, normStrBytes kv0.2) := by
  intro l
  induction l with
  | nil => intro kv h; cases h
  | cons kv0 r ih =>
    intro kv h
    obtain ⟨k, v⟩ := kv0
    simp only [normPairs, List.mem_cons] at h
    rcases h with h | h
    · exact ⟨(k, v), by simp, h⟩
    · obtain ⟨kv1, h1, h2⟩ := ih h
      exact ⟨kv1, List.mem_cons_of_mem _ h1, h2⟩

theorem normPairs_fixed_of :
    ∀ {x : List (PyVal × PyVal)},
      (∀ kv ∈ x, normStrBytes kv.1 = kv.1 ∧ normStrBytes kv.2 = kv.2) →
      normPairs x = x := by
  intro x
  induction x with
  | nil => intro _; rfl
  | cons kv r ih =>
    intro h
    obtain ⟨k, v⟩ := kv
    have hh := h (k, v) (by simp)
    simp only [normPairs, hh.1, hh.2]
    rw [ih (fun kv2 h2 => h kv2 (List.mem_cons_of_mem _ h2))]

mutual

theorem norm_idem : ∀ v, normStrBytes (normStrBytes v) = normStrBytes v
  | .str s => by simp [normStrBytes]
  | .bytes b => by simp [normStrBytes]
  | .dict l => by
    simp only [normStrBytes]
    congr 1
    have h1 : normPairs (dictMk (normPairs l)) = dictMk (normPairs l) :=
      normPairs_fixed_of (fun kv hkv => normPairs_fixed l kv (dictMk_mem hkv))
    rw [h1]
    exact dictMk_nodup (dictMk_keysDistinct _)
  | .tuple l => by simp only [normStrBytes, normList_idem l]
  | .list l => by simp only [normStrBytes, normList_idem l]

theorem normList_idem : ∀ l, normList (normList l) = normList l
  | [] => rfl
  | v :: r => by simp only [normList, norm_idem v, normList_idem r]

theorem normPairs_fixed :
    ∀ (l : List (PyVal × PyVal)) (kv : PyVal × PyVal), kv ∈ normPairs l →
      normStrBytes kv.1 = kv.1 ∧ normStrBytes kv.2 = kv.2
  | [] => by intro kv h; cases h
  | (k, v) :: r => by
    intro kv h
    simp only [normPairs, List.mem_cons] at h
    rcases h with h | h
    · rw [h]
      exact ⟨norm_idem k, norm_idem v⟩
    · exact normPairs_fixed r kv h

end

mutual

/-- Equality up to leaf representation: same container kind, count and keys
everywhere; string-like leaves carry the same text, possibly re-encoded. -/
def similarRep : PyVal → PyVal → Bool
  | .str a, .str b => a = b
  | .str a, .bytes b => utf8Encode a = b
  | .bytes a, .str b => utf8Decode a = some b
  | .bytes a, .bytes b => a = b
  | .dict a, .dict b => similarPairs a b
  | .tuple a, .tuple b => similarList a b
  | .list a, .list b => similarList a b
  | _, _ => false

def similarList : List PyVal → List PyVal → Bool
  | [], [] => true
  | a :: r1, b :: r2 => similarRep a b && similarList r1 r2
  | _, _ => false

def similarPairs : List (PyVal × PyVal) → List (PyVal × PyVal) → Bool
  | [], [] => true
  | (k1, v1) :: r1, (k2, v2) :: r2 =>
    similarRep k1 k2 && similarRep v1 v2 && similarPairs r1 r2
  | _, _ => false

end

mutual

/-- Well-formed keys: in every mapping of the tree, no two keys normalize to
the same value (no key collisions under `dict` reconstruction). -/
def wfKeys : PyVal → Bool
  | .str _ => true
  | .bytes _ => true
  | .dict l => keysDistinct ((normPairs l).map Prod.fst) && wfPairs l
  | .tuple l => wfList l
  | .list l => wfList l

def wfList : List PyVal → Bool
  | [] => true
  | v :: r => wfKeys v && wfList r

def wfPairs : List (PyVal × PyVal) → Bool
  | [] => true
  | (k, v) :: r => wfKeys k && wfKeys v && wfPairs r

end

mutual

/-- Every byte-string leaf of the tree holds valid UTF-8. -/
def validBytes : PyVal → Bool
  | .str _ => true
  | .bytes b => (utf8Decode b).isSome
  | .dict l => validPairs l
  | .tuple l => validList l
  | .list l => validList l

def validList : List PyVal → Bool
  | [] => true
  | v :: r => validBytes v && validList r

def validPairs : List (PyVal × PyVal) → Bool
  | [] => true
  | (k, v) :: r => validBytes k && validBytes v && validPairs r

end

mutual

theorem similar_norm :
    ∀ v, wfKeys v = true → similarRep v (normStrBytes v) = true
  | .str s, _ => by simp [normStrBytes, similarRep]
  | .bytes b, _ => by simp [normStrBytes, similarRep]
  | .dict l, h => by
    simp only [wfKeys, Bool.and_eq_true] at h
    simp only [normStrBytes, similarRep]
    rw [dictMk_nodup h.1]
    exact similarPairs_norm l h.2
  | .tuple l, h => by
    simp only [wfKeys] at h
    simp only [normStrBytes, similarRep]
    exact similarList_norm l h
  | .list l, h => by
    simp only [wfKeys] at h
    simp only [normStrBytes, similarRep]
    exact similarList_norm l h

theorem similarList_norm :
    ∀ l, wfList l = true → similarList l (normList l) = true
  | [], _ => rfl
  | v :: r, h => by
    simp only [wfList, Bool.and_eq_true] at h
    simp only [normList, similarList, Bool.and_eq_true]
    exact ⟨similar_norm v h.1, similarList_norm r h.2⟩

theorem similarPairs_norm :
    ∀ l, wfPairs l = true → similarPairs l (normPairs l) = true
  | [], _ => rfl
  | (k, v) :: r, h => by
    simp only [wfPairs, Bool.and_eq_true] at h
    simp only [normPairs, similarPairs, Bool.and_eq_true]
    exact ⟨⟨similar_norm k h.1.1, similar_norm v h.1.2⟩, similarPairs_norm r h.2⟩

end

/-! ## Claims C4 and C5 -/

/-- Counterexample to C4 as stated: a two-entry mapping whose keys differ
only in leaf representation normalizes to a one-entry mapping (last value
wins), so the element count is not preserved and the result is not equal to
the input up to leaf representation. -/
theorem structure_preservation_cex :
    convert Kind.str Kind.bytes
        (PyVal.dict [(PyVal.str ['a'], PyVal.str ['x']),
          (PyVal.bytes [97], PyVal.str ['y'])])
      = some (PyVal.dict [(PyVal.bytes [97], PyVal.bytes [121])]) ∧
    ([(PyVal.str ['a'], PyVal.str ['x']),
      (PyVal.bytes [97], PyVal.str ['y'])] : List (PyVal × PyVal)).length = 2 ∧
    ([(PyVal.bytes [97], PyVal.bytes [121])] : List (PyVal × PyVal)).length = 1 ∧
    similarRep
      (PyVal.dict [(PyVal.str ['a'], PyVal.str ['x']),
        (PyVal.bytes [97], PyVal.str ['y'])])
      (PyVal.dict [(PyVal.bytes [97], PyVal.bytes [121])]) = false := by
  refine ⟨by decide, rfl, rfl, by decide⟩

/-- C4 (amended): provided no two keys of any mapping in the tree are equal
up to leaf representation and every byte leaf is valid UTF-8, normalization
succeeds, preserves the structure exactly (container kinds, counts, keys)
changing only leaf representation, and applying the reverse normalization
yields a tree equal to the original up to leaf representation. -/
theorem structure_preservation_amended :
    ∀ t, wfKeys t = true → validBytes t = true →
      convert Kind.str Kind.bytes t = some (normStrBytes t) ∧
      similarRep t (normStrBytes t) = true ∧
      ∃ w, convert Kind.bytes Kind.str (normStrBytes t) = some w ∧
        similarRep t w = true := by
  intro t hwf hvb
  refine ⟨convert_default_eq t, similar_norm t hwf, ?_⟩
  cases t with
  | str s =>
    refine ⟨.str s, ?_, by simp [similarRep]⟩
    show convert Kind.bytes Kind.str (.bytes (utf8Encode s)) = some (.str s)
    simp [convert, matchesKind, coerceTo, utf8Decode_encode]
  | bytes b =>
    simp only [validBytes] at hvb
    obtain ⟨sb, hsb⟩ := Option.isSome_iff_exists.mp hvb
    refine ⟨.str sb, ?_, ?_⟩
    · show convert Kind.bytes Kind.str (.bytes b) = some (.str sb)
      simp [convert, matchesKind, coerceTo, hsb]
    · simp [similarRep, hsb]
  | dict l =>
    refine ⟨normStrBytes (.dict l), ?_, similar_norm _ hwf⟩
    show convert Kind.bytes Kind.str (.dict (dictMk (normPairs l))) = _
    rw [show convert Kind.bytes Kind.str (.dict (dictMk (normPairs l)))
        = (convertPairs (dictMk (normPairs l))).map
            (fun l2 => PyVal.dict (dictMk l2)) from rfl]
    rw [convertPairs_eq]
    have h1 : normPairs (dictMk (normPairs l)) = dictMk (normPairs l) :=
      normPairs_fixed_of (fun kv hkv => normPairs_fixed l kv (dictMk_mem hkv))
    rw [h1]
    show some (PyVal.dict (dictMk (dictMk (normPairs l))))
      = some (normStrBytes (PyVal.dict l))
    rw [dictMk_nodup (dictMk_keysDistinct _)]
    rfl
  | tuple l =>
    refine ⟨normStrBytes (.tuple l), ?_, similar_norm _ hwf⟩
    show convert Kind.bytes Kind.str (.tuple (normList l)) = _
    rw [show convert Kind.bytes Kind.str (.tuple (normList l))
        = (convertList (normList l)).map PyVal.tuple from rfl]
    rw [convertList_eq, normList_idem]
    rfl
  | list l =>
    refine ⟨normStrBytes (.list l), ?_, similar_norm _ hwf⟩
    show convert Kind.bytes Kind.str (.list (normList l)) = _
    rw [show convert Kind.bytes Kind.str (.list (normList l))
        = (convertList (normList l)).map PyVal.list from rfl]
    rw [convertList_eq, normList_idem]
    rfl

/-- Witness for the amended C4 on a concrete nested mapping. -/
theorem structure_preservation_amended_witness :
    convert Kind.str Kind.bytes
        (PyVal.dict [(PyVal.str ['a'], PyVal.str ['x'])])
      = some (normStrBytes (PyVal.dict [(PyVal.str ['a'], PyVal.str ['x'])])) ∧
    similarRep (PyVal.dict [(PyVal.str ['a'], PyVal.str ['x'])])
      (normStrBytes (PyVal.dict [(PyVal.str ['a'], PyVal.str ['x'])])) = true ∧
    ∃ w, convert Kind.bytes Kind.str
        (normStrBytes (PyVal.dict [(PyVal.str ['a'], PyVal.str ['x'])]))
        = some w ∧
      similarRep (PyVal.dict [(PyVal.str ['a'], PyVal.str ['x'])]) w = true :=
  structure_preservation_amended
    (PyVal.dict [(PyVal.str ['a'], PyVal.str ['x'])]) (by decide) (by decide)

/-- Counterexample to C5 as stated: with `frm=bytes, to=str`, a mapping's
value comes back unchanged even though normalizing that value alone with
the same kinds converts it — the recursive calls do not receive the outer
kinds. -/
theorem convert_kinds_cex :
    convert Kind.bytes Kind.str
        (PyVal.dict [(PyVal.bytes [97], PyVal.bytes [98])])
      = some (PyVal.dict [(PyVal.bytes [97], PyVal.bytes [98])]) ∧
    convert Kind.bytes Kind.str (PyVal.bytes [98])
      = some (PyVal.str ['b']) ∧
    PyVal.bytes [98] ≠ PyVal.str ['b'] := by
  refine ⟨by decide, by decide, by decide⟩

/-- C5 (amended): for every mapping, tuple or list, and for any outer kinds,
the result is a container of the same kind whose keys/values/elements are
each normalized with the DEFAULT kinds text→bytes (the source's recursive
calls pass no kinds); for the default outer kinds the claim holds as
stated. -/
theorem convert_kinds_amended :
    (∀ frm toK l, convert frm toK (PyVal.dict l)
        = some (.dict (dictMk (l.map (fun kv =>
            (normStrBytes kv.1, normStrBytes kv.2)))))) ∧
    (∀ frm toK l, convert frm toK (PyVal.tuple l)
        = some (.tuple (l.map normStrBytes))) ∧
    (∀ frm toK l, convert frm toK (PyVal.list l)
        = some (.list (l.map normStrBytes))) ∧
    (∀ v, convert Kind.str Kind.bytes v = some (normStrBytes v)) := by
  refine ⟨?_, ?_, ?_, convert_default_eq⟩
  · intro frm toK l
    show (convertPairs l).map (fun l2 => PyVal.dict (dictMk l2)) = _
    rw [convertPairs_eq, normPairs_eq_map]
    rfl
  · intro frm toK l
    show (convertList l).map PyVal.tuple = _
    rw [convertList_eq, normList_eq_map]
    rfl
  · intro frm toK l
    show (convertList l).map PyVal.list = _
    rw [convertList_eq, normList_eq_map]
    rfl

/-! ## get_value (src/hggit/util.py lines 152-162)

```python
def get_value(d, key):
    v = d.get(key, None)
    if not None and type(key) == str:
        k = key.encode('utf-8')
        v = d.get(k, None)
    if v:
        return v
    raise(Exception('%s is not in the dict' % key))
```

`not None` is always `True`, so for a text key the helper unconditionally
overwrites the first lookup with a lookup of the UTF-8-encoded key; it then
returns `v` only when `v` is truthy, raising (modelled `none`) otherwise —
including when the key is present but maps to a falsy value. -/

/-- Models `d.get(k, None)` (keys compared by equality; Python dict keys are
unique, so first match suffices). -/
def lookupD : List (PyVal × PyVal) → PyVal → Option PyVal
  | [], _ => none
  | (k0, v0) :: r, k => if k0 = k then some v0 else lookupD r k

/-- Python truthiness of the modelled values: empty strings, byte strings
and containers are falsy. -/
def truthy : PyVal → Bool
  | .str s => !s.isEmpty
  | .bytes b => !b.isEmpty
  | .dict l => !l.isEmpty
  | .tuple l => !l.isEmpty
  | .list l => !l.isEmpty

def get_value (d : List (PyVal × PyVal)) (key : PyVal) : Option PyVal :=
  let v0 := lookupD d key
  let v := match key with
    | .str s => lookupD d (.bytes (utf8Encode s))
    | _ => v0
  match v with
  | some x => if truthy x then some x else none
  | none => none

/-- The lookup the helper actually consults: the UTF-8-encoded key for a
text key, the key itself otherwise. -/
def consulted (d : List (PyVal × PyVal)) (key : PyVal) : Option PyVal :=
  match key with
  | .str s => lookupD d (.bytes (utf8Encode s))
  | _ => lookupD d key

/-! ## Claim C6 -/

/-- Counterexample to C6 as stated: the key `b'a'` is present in the
mapping (bound to the falsy value `b''`), yet the helper raises instead of
returning the stored value. -/
theorem get_value_cex :
    lookupD [(PyVal.bytes [97], PyVal.bytes [])] (PyVal.bytes [97])
      = some (PyVal.bytes []) ∧
    get_value [(PyVal.bytes [97], PyVal.bytes [])] (PyVal.bytes [97])
      = none := by
  refine ⟨by decide, by decide⟩

/-- C6 (amended): `get_value d k` consults the UTF-8-encoded key when `k`
is a text string and `k` itself otherwise; it returns the consulted value
exactly when it is present and truthy, and raises in every other case —
including a present-but-falsy value, and a text key whose encoded form is
absent even if the text key itself is present. -/
theorem get_value_amended :
    ∀ d key,
      (∀ v, get_value d key = some v ↔
        (consulted d key = some v ∧ truthy v = true)) ∧
      (get_value d key = none ↔
        ∀ v, consulted d key = some v → truthy v = false) := by
  intro d key
  have hv : get_value d key =
      match consulted d key with
      | some x => if truthy x then some x else none
      | none => none := by
    cases key <;> rfl
  constructor
  · intro v
    rw [hv]
    cases hc : consulted d key with
    | none => simp
    | some x =>
      dsimp only
      constructor
      · intro h
        by_cases ht : truthy x = true
        · rw [if_pos ht] at h
          cases h
          exact ⟨rfl, ht⟩
        · rw [if_neg ht] at h
          cases h
      · rintro ⟨h1, h2⟩
        cases h1
        rw [if_pos h2]
  · rw [hv]
    cases hc : consulted d key with
    | none => simp
    | some x =>
      dsimp only
      constructor
      · intro h v hv2
        have hxv : x = v := by injection hv2
        subst hxv
        by_cases ht : truthy x = true
        · rw [if_pos ht] at h
          cases h
        · cases hb : truthy x with
          | false => rfl
          | true => exact absurd hb ht
      · intro h
        rw [if_neg (by simp [h x rfl])]

/-- Witness for the amended C6: a present truthy value is returned, a
missing key raises. -/
theorem get_value_amended_witness :
    (get_value [(PyVal.bytes [97], PyVal.bytes [98])] (PyVal.bytes [97])
        = some (PyVal.bytes [98]) ↔
      (consulted [(PyVal.bytes [97], PyVal.bytes [98])] (PyVal.bytes [97])
          = some (PyVal.bytes [98]) ∧
        truthy (PyVal.bytes [98]) = true)) ∧
    (get_value [(PyVal.bytes [97], PyVal.bytes [98])] (PyVal.bytes [97])
        = none ↔
      ∀ v, consulted [(PyVal.bytes [97], PyVal.bytes [98])] (PyVal.bytes [97])
          = some v → truthy v = false) :=
  ⟨(get_value_amended [(PyVal.bytes [97], PyVal.bytes [98])]
      (PyVal.bytes [97])).1 (PyVal.bytes [98]),
   (get_value_amended [(PyVal.bytes [97], PyVal.bytes [98])]
      (PyVal.bytes [97])).2⟩

/-! ## to_bytes / to_str / path_join (src/hggit/util.py lines 165-209)

```python
def to_bytes(v):
    if type(v) != bytes:
        v = str(v).encode('utf-8')
    return v

def to_str(v):
    if type(v) == bytes:
        v = v.decode('utf-8')
    return v

def path_join(a, *p):
    p2 = []
    for x in p:
        p2.append(to_bytes(x))
    v = os.path.join_orig(to_bytes(a), *p2)
    return v
```

Scalars are modelled by `PyScalar`; `str(v)` is `pyStr` (identity on text,
decimal representation of integers, `True`/`False`/`None`, and the bytes
repr — the latter unreachable from `to_bytes`, which keeps byte strings
untouched).  `os.path.join_orig` is the saved original POSIX
`os.path.join` working on byte strings, modelled by `joinOrig`. -/

inductive PyScalar where
  | str (s : List Char)
  | bytes (b : List Nat)
  | int (i : Int)
  | bool (b : Bool)
  | none
deriving DecidableEq

/-- Lower-case hex digit. -/
def hexDigit (n : Nat) : Char :=
  if n < 10 then Char.ofNat (48 + n) else Char.ofNat (87 + n)

/-- One byte of the Python bytes repr under quote character `q`. -/
def byteReprChar (q : Char) (b : Nat) : List Char :=
  if b = 92 then ['\\', '\\']
  else if b = q.toNat then ['\\', q]
  else if b = 9 then ['\\', 't']
  else if b = 10 then ['\\', 'n']
  else if b = 13 then ['\\', 'r']
  else if 0x20 ≤ b ∧ b < 0x7F then [Char.ofNat b]
  else ['\\', 'x', hexDigit (b / 16), hexDigit (b % 16)]

/-- Models `str(b)` = `repr(b)` for a byte string (single quotes, switching
to double quotes when the bytes contain a single quote but no double
quote). -/
def pyBytesRepr (b : List Nat) : List Char :=
  let q := if b.contains 39 && !(b.contains 34) then '"' else '\''
  'b' :: q :: (b.map (byteReprChar q)).flatten ++ [q]

/-- Models `str(v)` on the scalar kinds. -/
def pyStr : PyScalar → List Char
  | .str s => s
  | .bytes b => pyBytesRepr b
  | .int i => (Int.repr i).data
  | .bool b => if b then toL "True" else toL "False"
  | .none => toL "None"

def to_bytes (v : PyScalar) : PyScalar :=
  match v with
  | .bytes b => .bytes b
  | _ => .bytes (utf8Encode (pyStr v))

def to_str (v : PyScalar) : Option PyScalar :=
  match v with
  | .bytes b => (utf8Decode b).map .str
  | _ => some v

/-- The byte payload of a byte-string scalar. -/
def pyBytes : PyScalar → List Nat
  | .bytes b => b
  | _ => []

/-- Models the original POSIX `os.path.join` on byte strings (47 = `'/'`):
an absolute segment restarts the path, otherwise a separator is inserted
unless one is already present. -/
def joinOrig (a : List Nat) (ps : List (List Nat)) : List Nat :=
  ps.foldl (fun path b =>
    if b.head? = some 47 then b
    else if path = [] ∨ path.getLast? = some 47 then path ++ b
    else path ++ 47 :: b) a

def path_join (a : PyScalar) (ps : List PyScalar) : PyScalar :=
  .bytes (joinOrig (pyBytes (to_bytes a))
    (ps.map (fun x => pyBytes (to_bytes x))))

example : path_join (.str ['a']) [.bytes [98], .str ['c']]
    = .bytes [97, 47, 98, 47, 99] := by decide
example : to_bytes (.int 5) = .bytes [53] := by decide
example : to_bytes (.int (-7)) = .bytes [45, 55] := by decide
example : to_bytes PyScalar.none = .bytes [78, 111, 110, 101] := by decide

/-! ## Claims C7 and C10 -/

/-- C7: the scalar wrappers are idempotent — re-encoding an encoded value
and re-decoding a decoded value change nothing (composition through the
error monad for the fallible decoder) — and for every text `x`,
`to_str (to_str (to_bytes x)) = to_str x`. -/
theorem scalar_wrappers_idempotent :
    (∀ v, to_bytes (to_bytes v) = to_bytes v) ∧
    (∀ v, (to_str v).bind to_str = to_str v) ∧
    (∀ s : List Char,
      (to_str (to_bytes (.str s))).bind to_str = to_str (.str s)) := by
  refine ⟨?_, ?_, ?_⟩
  · intro v
    cases v <;> rfl
  · intro v
    cases v with
    | bytes b =>
      show ((utf8Decode b).map PyScalar.str).bind to_str
        = (utf8Decode b).map PyScalar.str
      cases hd : utf8Decode b with
      | none => rfl
      | some s => rfl
    | str s => rfl
    | int i => rfl
    | bool b => rfl
    | none => rfl
  · intro s
    show (to_str (.bytes (utf8Encode s))).bind to_str = some (.str s)
    rw [show to_str (.bytes (utf8Encode s))
        = (utf8Decode (utf8Encode s)).map .str from rfl, utf8Decode_encode]
    rfl

/-- C10: `to_bytes` turns every non-byte scalar — integers, booleans and
`None` included — into the UTF-8 encoding of its string representation
(`to_bytes(5) == b'5'`), never returning such values unchanged, and
`path_join` coerces every segment to bytes before delegating to the
underlying join primitive, so it always produces a byte string. -/
theorem to_bytes_coercion_spec :
    to_bytes (.int 5) = .bytes [53] ∧
    (∀ v : PyScalar, (∀ b, v ≠ .bytes b) →
      to_bytes v = .bytes (utf8Encode (pyStr v)) ∧ to_bytes v ≠ v) ∧
    (∀ a ps, path_join a ps
      = .bytes (joinOrig (pyBytes (to_bytes a))
          (ps.map (fun x => pyBytes (to_bytes x))))) ∧
    (∀ a ps, ∃ b, path_join a ps = .bytes b) := by
  refine ⟨by decide, ?_, fun a ps => rfl, fun a ps => ⟨_, rfl⟩⟩
  intro v hv
  cases v with
  | bytes b => exact absurd rfl (hv b)
  | str s =>
    refine ⟨rfl, ?_⟩
    intro h
    cases h
  | int i =>
    refine ⟨rfl, ?_⟩
    intro h
    cases h
  | bool b =>
    refine ⟨rfl, ?_⟩
    intro h
    cases h
  | none =>
    refine ⟨rfl, ?_⟩
    intro h
    cases h

/-- Witness for C10 at a non-string scalar. -/
theorem to_bytes_coercion_spec_witness :
    to_bytes (.bool true) = .bytes (utf8Encode (pyStr (.bool true))) ∧
    to_bytes (.bool true) ≠ .bool true :=
  to_bytes_coercion_spec.2.1 (.bool true) (fun b h => PyScalar.noConfusion h)

/-! ## parse/serialize for hgsub and hgsubstate (src/hggit/util.py lines 24-55)

```python
def parse_hgsub(lines):
    rv = OrderedDict()
    for l in lines:
        ls = l.strip()
        if not ls or ls[0] == '#':
            continue
        name, value = l.split('=', 1)
        rv[name.strip()] = value.strip()
    return rv

def serialize_hgsub(data):
    return ''.join(['%s = %s\n' % (n, v) for n, v in data.iteritems()])

def parse_hgsubstate(lines):
    rv = OrderedDict()
    for l in lines:
        ls = l.strip()
        if not ls or ls[0] == '#':
            continue
        value, name = l.split(' ', 1)
        rv[name.strip()] = value.strip()
    return rv

def serialize_hgsubstate(data):
    return ''.join(['%s %s\n' % (data[n], n) for n in sorted(data)])
```

An `OrderedDict` is modelled as its insertion-ordered entry list with
update-in-place assignment; `iteritems` iterates the entries in insertion
order (its Python 2 meaning).  `l.split(sep, 1)` with no separator present
makes the two-name unpacking raise `ValueError`, modelled `none`. -/

/-- The whitespace stripped by Python `str.strip()` (ASCII part). -/
def isSpc (c : Char) : Bool :=
  c = ' ' || c = '\t' || c = '\n' || c = '\r' || c = '\x0b' || c = '\x0c'

/-- Models `l.strip()`. -/
def pyStrip (l : List Char) : List Char :=
  ((l.dropWhile isSpc).reverse.dropWhile isSpc).reverse

/-- Split a string into its `'\n'`-separated lines (a trailing newline
yields a final empty line, which the parsers skip). -/
def splitNL : List Char → List (List Char)
  | [] => [[]]
  | c :: r =>
    if c = '\n' then [] :: splitNL r
    else
      match splitNL r with
      | h :: t => (c :: h) :: t
      | [] => [[c]]

/-- `OrderedDict` assignment: an existing key keeps its position and takes
the new value, a new key is appended. -/
def updOD : List (List Char × List Char) → List Char → List Char →
    List (List Char × List Char)
  | [], k, v => [(k, v)]
  | (k0, v0) :: r, k, v =>
    if k0 = k then (k0, v) :: r else (k0, v0) :: updOD r k v

def lookupOD : List (List Char × List Char) → List Char → Option (List Char)
  | [], _ => none
  | (k0, v0) :: r, k => if k0 = k then some v0 else lookupOD r k

def parseHgsubGo : List (List Char × List Char) → List (List Char) →
    Option (List (List Char × List Char))
  | acc, [] => some acc
  | acc, l :: rest =>
    let ls := pyStrip l
    if ls.isEmpty || decide (ls.head? = some '#') then parseHgsubGo acc rest
    else
      match splitOnce '=' l with
      | none => none
      | some (n, v) => parseHgsubGo (updOD acc (pyStrip n) (pyStrip v)) rest

def parse_hgsub (lines : List (List Char)) :
    Option (List (List Char × List Char)) :=
  parseHgsubGo [] lines

def serialize_hgsub (d : List (List Char × List Char)) : List Char :=
  (d.map (fun kv => kv.1 ++ toL " = " ++ kv.2 ++ ['\n'])).flatten

def parseHgsubstateGo : List (List Char × List Char) → List (List Char) →
    Option (List (List Char × List Char))
  | acc, [] => some acc
  | acc, l :: rest =>
    let ls := pyStrip l
    if ls.isEmpty || decide (ls.head? = some '#') then parseHgsubstateGo acc rest
    else
      match splitOnce ' ' l with
      | none => none
      | some (v, n) => parseHgsubstateGo (updOD acc (pyStrip n) (pyStrip v)) rest

def parse_hgsubstate (lines : List (List Char)) :
    Option (List (List Char × List Char)) :=
  parseHgsubstateGo [] lines

/-- Python string comparison: lexicographic on code points. -/
def lexLe : List Char → List Char → Bool
  | [], _ => true
  | _ :: _, [] => false
  | a :: r1, b :: r2 => if a < b then true else if a = b then lexLe r1 r2 else false

/-- The ordering used by `sorted` on the modelled strings. -/
def lexLeP (a b : List Char) : Prop := lexLe a b = true

instance : DecidableRel lexLeP :=
  fun a b => (inferInstance : Decidable (lexLe a b = true))

def serialize_hgsubstate (d : List (List Char × List Char)) : List Char :=
  ((List.insertionSort lexLeP (d.map Prod.fst)).map
    (fun n => (lookupOD d n).getD [] ++ ' ' :: n ++ ['\n'])).flatten

example :
    parse_hgsub (splitNL (serialize_hgsub [(toL "sub", toL "src")]))
      = some [(toL "sub", toL "src")] := by decide
example :
    parse_hgsubstate (splitNL (serialize_hgsubstate
        [(toL "b", toL "12"), (toL "a", toL "34")]))
      = some [(toL "a", toL "34"), (toL "b", toL "12")] := by decide
example :
    parse_hgsub (splitNL (serialize_hgsub [(['a', '\n', 'b'], ['c'])]))
      = none := by decide

theorem lexLe_cons_iff {a b : Char} {r1 r2 : List Char} :
    lexLe (a :: r1) (b :: r2) = true ↔ a < b ∨ (a = b ∧ lexLe r1 r2 = true) := by
  simp only [lexLe]
  by_cases h1 : a < b
  · simp [h1]
  · rw [if_neg h1]
    by_cases h2 : a = b
    · simp [h2, h1]
    · simp [h1, h2]

theorem lexLe_total : ∀ a b : List Char, lexLe a b = true ∨ lexLe b a = true
  | [], b => Or.inl (by cases b <;> rfl)
  | a :: r1, [] => Or.inr rfl
  | a :: r1, b :: r2 => by
    rcases lt_trichotomy a b with h | h | h
    · exact Or.inl (lexLe_cons_iff.mpr (Or.inl h))
    · subst h
      rcases lexLe_total r1 r2 with h2 | h2
      · exact Or.inl (lexLe_cons_iff.mpr (Or.inr ⟨rfl, h2⟩))
      · exact Or.inr (lexLe_cons_iff.mpr (Or.inr ⟨rfl, h2⟩))
    · exact Or.inr (lexLe_cons_iff.mpr (Or.inl h))

theorem lexLe_trans :
    ∀ a b c : List Char, lexLe a b = true → lexLe b c = true →
      lexLe a c = true
  | [], _, c => fun _ _ => by cases c <;> rfl
  | a :: r1, [], _ => fun h _ => by simp [lexLe] at h
  | a :: r1, b :: r2, [] => fun _ h => by simp [lexLe] at h
  | a :: r1, b :: r2, c :: r3 => by
    intro h1 h2
    rcases lexLe_cons_iff.mp h1 with hab | ⟨hab, hr1⟩
    · rcases lexLe_cons_iff.mp h2 with hbc | ⟨hbc, hr2⟩
      · exact lexLe_cons_iff.mpr (Or.inl (lt_trans hab hbc))
      · exact lexLe_cons_iff.mpr (Or.inl (hbc ▸ hab))
    · rcases lexLe_cons_iff.mp h2 with hbc | ⟨hbc, hr2⟩
      · exact lexLe_cons_iff.mpr (Or.inl (hab ▸ hbc))
      · exact lexLe_cons_iff.mpr
          (Or.inr ⟨hab.trans hbc, lexLe_trans r1 r2 r3 hr1 hr2⟩)

instance : IsTotal (List Char) lexLeP := ⟨lexLe_total⟩

instance : IsTrans (List Char) lexLeP := ⟨lexLe_trans⟩

/-- A list equal to its strip has a non-space head and a non-space last
character. -/
theorem pyStrip_fix_ends {k : List Char} (h : pyStrip k = k) :
    (∀ c, k.head? = some c → isSpc c = false) ∧
    (∀ c, k.getLast? = some c → isSpc c = false) := by
  have hs1 : (k.dropWhile isSpc).length ≤ k.length :=
    (List.dropWhile_suffix isSpc).length_le
  have hs2 : ((k.dropWhile isSpc).reverse.dropWhile isSpc).length
      ≤ (k.dropWhile isSpc).length := by
    have := (List.dropWhile_suffix (l := (k.dropWhile isSpc).reverse) isSpc).length_le
    simpa using this
  have hlen : (pyStrip k).length
      = ((k.dropWhile isSpc).reverse.dropWhile isSpc).length := by
    simp [pyStrip]
  have heq1 : k.dropWhile isSpc = k := by
    apply (List.dropWhile_suffix isSpc).eq_of_length
    rw [h] at hlen
    omega
  have heq2 : k.reverse.dropWhile isSpc = k.reverse := by
    apply (List.dropWhile_suffix isSpc).eq_of_length
    rw [h, heq1] at hlen
    simp only [List.length_reverse] at hlen ⊢
    omega
  constructor
  · intro c hc
    cases k with
    | nil => cases hc
    | cons a t =>
      have ha : a = c := by simpa using hc
      subst ha
      by_cases hsp : isSpc a = true
      · rw [List.dropWhile_cons, if_pos hsp] at heq1
        have := congrArg List.length heq1
        have h2 := (List.dropWhile_suffix (l := t) isSpc).length_le
        simp at this
        omega
      · exact Bool.not_eq_true _ ▸ hsp
  · intro c hc
    have hrev : k.reverse.head? = some c := by
      rw [List.head?_reverse]
      exact hc
    cases hk : k.reverse with
    | nil => rw [hk] at hrev; cases hrev
    | cons a t =>
      rw [hk] at hrev heq2
      have ha : a = c := by simpa using hrev
      subst ha
      by_cases hsp : isSpc a = true
      · rw [List.dropWhile_cons, if_pos hsp] at heq2
        have := congrArg List.length heq2
        have h2 := (List.dropWhile_suffix (l := t) isSpc).length_le
        simp at this
        omega
      · exact Bool.not_eq_true _ ▸ hsp

theorem dropWhile_head_keep {p : Char → Bool} {l : List Char} {c : Char}
    (hc : l.head? = some c) (hp : p c = false) : l.dropWhile p = l := by
  cases l with
  | nil => cases hc
  | cons a t =>
    have : a = c := by simpa using hc
    subst this
    rw [List.dropWhile_cons, if_neg (by simp [hp])]

theorem pyStrip_keep {l : List Char} {c cl : Char} (hh : l.head? = some c)
    (hc : isSpc c = false) (hl : l.getLast? = some cl)
    (hcl : isSpc cl = false) : pyStrip l = l := by
  unfold pyStrip
  rw [dropWhile_head_keep hh hc]
  rw [dropWhile_head_keep (by rw [List.head?_reverse]; exact hl) hcl]
  simp

/-- Stripping a string with one space appended on the right. -/
theorem pyStrip_append_space {k : List Char} {c cl : Char}
    (hh : k.head? = some c) (hc : isSpc c = false)
    (hl : k.getLast? = some cl) (hcl : isSpc cl = false) :
    pyStrip (k ++ [' ']) = k := by
  obtain ⟨a, t, rfl⟩ : ∃ a t, k = a :: t := by
    cases k with
    | nil => cases hh
    | cons a t => exact ⟨a, t, rfl⟩
  have ha : a = c := by simpa using hh
  unfold pyStrip
  rw [show (a :: t) ++ [' '] = a :: (t ++ [' ']) from rfl]
  rw [dropWhile_head_keep (l := a :: (t ++ [' '])) rfl (ha ▸ hc)]
  rw [show (a :: (t ++ [' '])).reverse = ' ' :: (a :: t).reverse from by simp]
  rw [List.dropWhile_cons, if_pos (by decide)]
  rw [dropWhile_head_keep (l := (a :: t).reverse)
    (by rw [List.head?_reverse]; exact hl) hcl]
  simp

/-- Stripping a string with one space prepended on the left. -/
theorem pyStrip_space_cons {v : List Char} {c cl : Char}
    (hh : v.head? = some c) (hc : isSpc c = false)
    (hl : v.getLast? = some cl) (hcl : isSpc cl = false) :
    pyStrip (' ' :: v) = v := by
  unfold pyStrip
  rw [List.dropWhile_cons, if_pos (by decide)]
  rw [dropWhile_head_keep hh hc]
  rw [dropWhile_head_keep (l := v.reverse)
    (by rw [List.head?_reverse]; exact hl) hcl]
  simp

/-- The conditions the claim puts on a single entry of the mapping: key and
value non-empty, already whitespace-trimmed, not beginning with `'#'`. -/
def trimmedEntry (kv : List Char × List Char) : Prop :=
  pyStrip kv.1 = kv.1 ∧ pyStrip kv.2 = kv.2 ∧ kv.1 ≠ [] ∧ kv.2 ≠ [] ∧
    kv.1.head? ≠ some '#' ∧ kv.2.head? ≠ some '#'

instance (kv : List Char × List Char) : Decidable (trimmedEntry kv) := by
  unfold trimmedEntry; infer_instance

/-- Splitting off one newline-terminated chunk of a serialized file. -/
theorem splitNL_chunk {u : List Char} (rest : List Char) (h : '\n' ∉ u) :
    splitNL (u ++ '\n' :: rest) = u :: splitNL rest := by
  induction u with
  | nil => simp [splitNL]
  | cons c t ih =>
    simp only [List.mem_cons, not_or] at h
    simp only [List.cons_append, splitNL, List.append_eq]
    rw [if_neg (fun hc => h.1 hc.symm), ih h.2]

/-- `OrderedDict` assignment with a fresh key appends the entry. -/
theorem updOD_notmem {k v : List Char} :
    ∀ {acc : List (List Char × List Char)},
      k ∉ acc.map Prod.fst → updOD acc k v = acc ++ [(k, v)] := by
  intro acc
  induction acc with
  | nil => intro _; rfl
  | cons p r ih =>
    intro h
    obtain ⟨k0, v0⟩ := p
    simp only [List.map_cons, List.mem_cons, not_or] at h
    simp only [updOD]
    rw [if_neg (fun hc => h.1 hc.symm), ih h.2]
    rfl

/-- A successful `OrderedDict` lookup returns a stored pair. -/
theorem lookupOD_mem : ∀ {d : List (List Char × List Char)} {k v : List Char},
    lookupOD d k = some v → (k, v) ∈ d := by
  intro d
  induction d with
  | nil => intro k v h; cases h
  | cons p r ih =>
    intro k v h
    obtain ⟨k0, v0⟩ := p
    simp only [lookupOD] at h
    split at h
    · rename_i hk
      injection h with hv
      rw [← hk, ← hv]
      exact List.mem_cons_self _ _
    · exact List.mem_cons_of_mem _ (ih h)

/-- With distinct keys, lookup of a stored key returns its stored value. -/
theorem mem_lookupOD : ∀ {d : List (List Char × List Char)} {k v : List Char},
    (d.map Prod.fst).Nodup → (k, v) ∈ d → lookupOD d k = some v := by
  intro d
  induction d with
  | nil => intro k v _ h; cases h
  | cons p r ih =>
    intro k v hnd hm
    obtain ⟨k0, v0⟩ := p
    simp only [List.map_cons, List.nodup_cons] at hnd
    simp only [lookupOD]
    rcases List.mem_cons.mp hm with he | hm2
    · injection he with h1 h2
      rw [if_pos h1.symm, h2]
    · have hne : ¬ (k0 = k) := by
        intro hc
        apply hnd.1
        rw [hc]
        exact List.mem_map_of_mem Prod.fst hm2
      rw [if_neg hne]
      exact ih hnd.2 hm2

/-- Lookup of a present key always succeeds (first matching entry wins). -/
theorem lookupOD_isSome : ∀ {d : List (List Char × List Char)} {k : List Char},
    k ∈ d.map Prod.fst → ∃ v, lookupOD d k = some v := by
  intro d
  induction d with
  | nil => intro k h; cases h
  | cons p r ih =>
    intro k h
    obtain ⟨k0, v0⟩ := p
    simp only [List.map_cons, List.mem_cons] at h
    simp only [lookupOD]
    by_cases hk : k0 = k
    · exact ⟨v0, by rw [if_pos hk]⟩
    · rcases h with h1 | h1
      · exact absurd h1.symm hk
      · rcases ih h1 with ⟨v, hv⟩
        exact ⟨v, by rw [if_neg hk]; exact hv⟩

/-- One parser step of the `=`-format on a line that is kept and splits. -/
theorem parseHgsubGo_step {acc : List (List Char × List Char)}
    {l : List Char} {rest : List (List Char)} {n v : List Char}
    (hs : pyStrip l = l) (hne : l.isEmpty = false)
    (hch : decide (l.head? = some '#') = false)
    (ho : splitOnce '=' l = some (n, v)) :
    parseHgsubGo acc (l :: rest)
      = parseHgsubGo (updOD acc (pyStrip n) (pyStrip v)) rest := by
  simp only [parseHgsubGo]
  rw [hs, hne, hch]
  simp only [Bool.or_self, Bool.false_eq_true, if_false]
  rw [ho]

/-- One parser step of the space-format on a line that is kept and splits. -/
theorem parseHgsubstateGo_step {acc : List (List Char × List Char)}
    {l : List Char} {rest : List (List Char)} {n v : List Char}
    (hs : pyStrip l = l) (hne : l.isEmpty = false)
    (hch : decide (l.head? = some '#') = false)
    (ho : splitOnce ' ' l = some (v, n)) :
    parseHgsubstateGo acc (l :: rest)
      = parseHgsubstateGo (updOD acc (pyStrip n) (pyStrip v)) rest := by
  simp only [parseHgsubstateGo]
  rw [hs, hne, hch]
  simp only [Bool.or_self, Bool.false_eq_true, if_false]
  rw [ho]

/-- Folding `OrderedDict` assignment over entries with globally fresh,
pairwise-distinct keys appends them all. -/
theorem foldl_updOD_nodup :
    ∀ (d acc : List (List Char × List Char)),
      (acc.map Prod.fst ++ d.map Prod.fst).Nodup →
      d.foldl (fun a kv => updOD a kv.1 kv.2) acc = acc ++ d := by
  intro d
  induction d with
  | nil => intro acc _; simp
  | cons kv d' ih =>
    obtain ⟨k, v⟩ := kv
    intro acc hnd
    have hnd1 : (acc.map Prod.fst ++ k :: d'.map Prod.fst).Nodup := by
      simpa using hnd
    have hnd2 : ((acc ++ [(k, v)]).map Prod.fst ++ d'.map Prod.fst).Nodup := by
      simp only [List.map_append, List.map_cons, List.map_nil,
        List.append_assoc, List.singleton_append]
      exact hnd1
    have hknot : k ∉ acc.map Prod.fst := by
      intro hmem
      rcases List.nodup_append.mp hnd1 with ⟨_, _, hdisj⟩
      exact hdisj hmem (List.mem_cons_self _ _)
    simp only [List.foldl_cons]
    rw [updOD_notmem hknot, ih (acc ++ [(k, v)]) hnd2]
    simp [List.append_assoc]

/-- Running the `=`-format parser over the serialization of well-behaved
entries accumulates each entry in order. -/
theorem parseHgsubGo_serialize :
    ∀ (d : List (List Char × List Char)),
      (∀ kv ∈ d, trimmedEntry kv ∧ '\n' ∉ kv.1 ∧ '\n' ∉ kv.2 ∧ '=' ∉ kv.1) →
      ∀ acc, parseHgsubGo acc (splitNL (serialize_hgsub d))
        = some (d.foldl (fun a kv => updOD a kv.1 kv.2) acc) := by
  intro d
  induction d with
  | nil => intro _ acc; rfl
  | cons kv d' ih =>
    obtain ⟨k, v⟩ := kv
    intro H acc
    have h0 : trimmedEntry (k, v) ∧ '\n' ∉ k ∧ '\n' ∉ v ∧ '=' ∉ k :=
      H (k, v) (List.mem_cons_self _ _)
    obtain ⟨ht, hnk, hnv, hek⟩ := h0
    have ht2 : pyStrip k = k ∧ pyStrip v = v ∧ k ≠ [] ∧ v ≠ [] ∧
        k.head? ≠ some '#' ∧ v.head? ≠ some '#' := ht
    obtain ⟨hsk, hsv, hk0, hv0, hkh, hvh⟩ := ht2
    obtain ⟨a, t, rfl⟩ := List.exists_cons_of_ne_nil hk0
    have hspa : isSpc a = false := (pyStrip_fix_ends hsk).1 a rfl
    obtain ⟨ckl, hckl⟩ : ∃ c, (a :: t).getLast? = some c :=
      ⟨(a :: t).getLast (by simp), List.getLast?_eq_getLast _ _⟩
    have hspckl : isSpc ckl = false := (pyStrip_fix_ends hsk).2 ckl hckl
    obtain ⟨cvl, hcvl⟩ : ∃ c, v.getLast? = some c :=
      ⟨v.getLast hv0, List.getLast?_eq_getLast _ _⟩
    have hspcvl : isSpc cvl = false := (pyStrip_fix_ends hsv).2 cvl hcvl
    obtain ⟨bv, hbv⟩ : ∃ c, v.head? = some c := ⟨v.head hv0, List.head?_eq_head hv0⟩
    have hspbv : isSpc bv = false := (pyStrip_fix_ends hsv).1 bv hbv
    have h3 : toL " = " = [' ', '=', ' '] := rfl
    have hline : serialize_hgsub ((a :: t, v) :: d')
        = (((a :: t) ++ toL " = ") ++ v) ++ '\n' :: serialize_hgsub d' := by
      simp [serialize_hgsub, List.append_assoc]
    have hnl : '\n' ∉ ((a :: t) ++ toL " = ") ++ v := by
      simp only [List.mem_append, not_or]
      refine ⟨⟨hnk, ?_⟩, hnv⟩
      decide
    have hhead : (((a :: t) ++ toL " = ") ++ v).head? = some a := rfl
    have hstrip : pyStrip (((a :: t) ++ toL " = ") ++ v)
        = ((a :: t) ++ toL " = ") ++ v := by
      apply pyStrip_keep hhead hspa ?_ hspcvl
      rw [List.getLast?_append_of_ne_nil _ hv0]
      exact hcvl
    have hne2 : (((a :: t) ++ toL " = ") ++ v).isEmpty = false := rfl
    have hch2 : decide ((((a :: t) ++ toL " = ") ++ v).head? = some '#') = false :=
      decide_eq_false (fun hc => hkh hc)
    have hsplit : splitOnce '=' (((a :: t) ++ toL " = ") ++ v)
        = some ((a :: t) ++ [' '], ' ' :: v) := by
      have hre : ((a :: t) ++ toL " = ") ++ v
          = ((a :: t) ++ [' ']) ++ '=' :: (' ' :: v) := by
        rw [h3]
        simp [List.append_assoc]
      rw [hre]
      exact splitOnce_append _ (by
        simp only [List.mem_append, not_or]
        exact ⟨hek, by decide⟩)
    have hstrip_n : pyStrip ((a :: t) ++ [' ']) = a :: t :=
      pyStrip_append_space rfl hspa hckl hspckl
    have hstrip_v : pyStrip (' ' :: v) = v :=
      pyStrip_space_cons hbv hspbv hcvl hspcvl
    rw [hline, splitNL_chunk _ hnl,
      parseHgsubGo_step hstrip hne2 hch2 hsplit, hstrip_n, hstrip_v,
      ih (fun kv hm => H kv (List.mem_cons_of_mem _ hm)) (updOD acc (a :: t) v)]
    rfl

/-- Running the space-format parser over lines serialized from any key list
drawn from a well-behaved mapping accumulates one entry per key. -/
theorem parseHgsubstateGo_serialize (d : List (List Char × List Char))
    (H : ∀ kv ∈ d, trimmedEntry kv ∧ '\n' ∉ kv.1 ∧ '\n' ∉ kv.2 ∧ ' ' ∉ kv.2) :
    ∀ (ns : List (List Char)), (∀ n ∈ ns, n ∈ d.map Prod.fst) →
    ∀ acc,
      parseHgsubstateGo acc
        (splitNL ((ns.map
          (fun n => (lookupOD d n).getD [] ++ ' ' :: n ++ ['\n'])).flatten))
        = some (ns.foldl (fun a n => updOD a n ((lookupOD d n).getD [])) acc) := by
  intro ns
  induction ns with
  | nil => intro _ acc; rfl
  | cons n ns' ih =>
    intro hns acc
    obtain ⟨v, hv⟩ := lookupOD_isSome (hns n (List.mem_cons_self _ _))
    have hmem : (n, v) ∈ d := lookupOD_mem hv
    have h0 : trimmedEntry (n, v) ∧ '\n' ∉ n ∧ '\n' ∉ v ∧ ' ' ∉ v := H (n, v) hmem
    obtain ⟨ht, hnn, hnv, hsp⟩ := h0
    have ht2 : pyStrip n = n ∧ pyStrip v = v ∧ n ≠ [] ∧ v ≠ [] ∧
        n.head? ≠ some '#' ∧ v.head? ≠ some '#' := ht
    obtain ⟨hsn, hsv, hn0, hv0, hnh, hvh⟩ := ht2
    have hgd : (lookupOD d n).getD [] = v := by rw [hv]; rfl
    obtain ⟨bv, v', rfl⟩ := List.exists_cons_of_ne_nil hv0
    have hspbv : isSpc bv = false := (pyStrip_fix_ends hsv).1 bv rfl
    obtain ⟨cnl, hcnl⟩ : ∃ c, n.getLast? = some c :=
      ⟨n.getLast hn0, List.getLast?_eq_getLast _ _⟩
    have hspcnl : isSpc cnl = false := (pyStrip_fix_ends hsn).2 cnl hcnl
    have hline : ((List.map
          (fun m => (lookupOD d m).getD [] ++ ' ' :: m ++ ['\n']) (n :: ns')).flatten)
        = ((bv :: v') ++ ' ' :: n) ++ '\n' ::
            ((List.map
              (fun m => (lookupOD d m).getD [] ++ ' ' :: m ++ ['\n']) ns').flatten) := by
      simp only [List.map_cons, List.flatten_cons, hgd]
      simp [List.append_assoc]
    have hnl2 : '\n' ∉ (bv :: v') ++ ' ' :: n := by
      intro hm2
      rcases List.mem_append.mp hm2 with h1 | h1
      · exact hnv h1
      · rcases List.mem_cons.mp h1 with h2 | h2
        · exact absurd h2 (by decide)
        · exact hnn h2
    have hhead2 : ((bv :: v') ++ ' ' :: n).head? = some bv := rfl
    have hstrip2 : pyStrip ((bv :: v') ++ ' ' :: n) = (bv :: v') ++ ' ' :: n := by
      apply pyStrip_keep hhead2 hspbv ?_ hspcnl
      have hrearr : (bv :: v') ++ ' ' :: n = ((bv :: v') ++ [' ']) ++ n := by
        simp
      rw [hrearr, List.getLast?_append_of_ne_nil _ hn0]
      exact hcnl
    have hne3 : ((bv :: v') ++ ' ' :: n).isEmpty = false := rfl
    have hch3 : decide (((bv :: v') ++ ' ' :: n).head? = some '#') = false :=
      decide_eq_false (fun hc => hvh hc)
    have hsplit2 : splitOnce ' ' ((bv :: v') ++ ' ' :: n) = some (bv :: v', n) :=
      splitOnce_append _ hsp
    rw [hline, splitNL_chunk _ hnl2,
      parseHgsubstateGo_step hstrip2 hne3 hch3 hsplit2, hsn, hsv,
      ih (fun m hm => hns m (List.mem_cons_of_mem _ hm)) (updOD acc n (bv :: v'))]
    simp only [List.foldl_cons, hgd]

/-- Folding `OrderedDict` assignment of looked-up values over distinct fresh
keys appends one entry per key. -/
theorem foldl_updOD_map (d : List (List Char × List Char)) :
    ∀ (ns : List (List Char)) (acc : List (List Char × List Char)),
      (acc.map Prod.fst ++ ns).Nodup →
      ns.foldl (fun a n => updOD a n ((lookupOD d n).getD [])) acc
        = acc ++ ns.map (fun n => (n, (lookupOD d n).getD [])) := by
  intro ns
  induction ns with
  | nil => intro acc _; simp
  | cons n ns' ih =>
    intro acc hnd
    have hknot : n ∉ acc.map Prod.fst := by
      intro hmem
      rcases List.nodup_append.mp hnd with ⟨_, _, hdisj⟩
      exact hdisj hmem (List.mem_cons_self _ _)
    have hnd2 : ((acc ++ [(n, (lookupOD d n).getD [])]).map Prod.fst ++ ns').Nodup := by
      simp only [List.map_append, List.map_cons, List.map_nil, List.append_assoc,
        List.singleton_append]
      exact hnd
    simp only [List.foldl_cons]
    rw [updOD_notmem hknot, ih _ hnd2]
    simp [List.append_assoc]

/-- C9 counterexample: the mapping with the single entry `"a\nb" -> "c"`
satisfies every hypothesis of the claim - distinct, non-empty,
whitespace-trimmed keys and values not beginning with `'#'`, no `'='` in the
key, no space in the value - yet parsing the serialized `=`-format file does
not return the mapping: the embedded newline splits the entry across two
lines and the parser raises a `ValueError` (modelled `none`). -/
theorem hgsub_roundtrip_cex :
    (([(['a', '\n', 'b'], ['c'])] : List (List Char × List Char)).map
        Prod.fst).Nodup ∧
    (∀ kv ∈ ([(['a', '\n', 'b'], ['c'])] : List (List Char × List Char)),
      trimmedEntry kv ∧ '=' ∉ kv.1 ∧ ' ' ∉ kv.2) ∧
    parse_hgsub (splitNL (serialize_hgsub [(['a', '\n', 'b'], ['c'])])) = none := by
  refine ⟨by decide, by decide, by decide⟩

/-- C9 (amended): for a mapping with distinct keys whose keys and values are
non-empty whitespace-trimmed strings not beginning with `'#'` and - the
amendment - containing no newline characters, with no `'='` in the keys and
no space in the values: parsing the serialized `=`-format file returns
exactly the mapping, and parsing the serialized space-format file returns a
mapping with the same key-to-value pairs whose keys are in sorted order. -/
theorem hgsub_roundtrip_amended (d : List (List Char × List Char))
    (hnd : (d.map Prod.fst).Nodup)
    (hok : ∀ kv ∈ d, trimmedEntry kv ∧ '\n' ∉ kv.1 ∧ '\n' ∉ kv.2)
    (heq : ∀ kv ∈ d, '=' ∉ kv.1)
    (hsp : ∀ kv ∈ d, ' ' ∉ kv.2) :
    parse_hgsub (splitNL (serialize_hgsub d)) = some d ∧
    ∃ e, parse_hgsubstate (splitNL (serialize_hgsubstate d)) = some e ∧
      (∀ kv, kv ∈ e ↔ kv ∈ d) ∧ (e.map Prod.fst).Sorted lexLeP := by
  have hperm : List.Perm (List.insertionSort lexLeP (d.map Prod.fst))
      (d.map Prod.fst) := List.perm_insertionSort lexLeP (d.map Prod.fst)
  have hnsmem : ∀ n ∈ List.insertionSort lexLeP (d.map Prod.fst),
      n ∈ d.map Prod.fst := fun n hn => hperm.mem_iff.mp hn
  have hnod : (List.insertionSort lexLeP (d.map Prod.fst)).Nodup :=
    hperm.nodup_iff.mpr hnd
  constructor
  · have h1 := parseHgsubGo_serialize d
      (fun kv hm => ⟨(hok kv hm).1, (hok kv hm).2.1, (hok kv hm).2.2, heq kv hm⟩) []
    show parseHgsubGo [] (splitNL (serialize_hgsub d)) = some d
    rw [h1, foldl_updOD_nodup d [] (by simpa using hnd)]
    simp
  · have hrun := parseHgsubstateGo_serialize d
      (fun kv hm => ⟨(hok kv hm).1, (hok kv hm).2.1, (hok kv hm).2.2, hsp kv hm⟩)
      (List.insertionSort lexLeP (d.map Prod.fst)) hnsmem []
    have hfold := foldl_updOD_map d (List.insertionSort lexLeP (d.map Prod.fst))
      [] (by simpa using hnod)
    refine ⟨(List.insertionSort lexLeP (d.map Prod.fst)).map
      (fun n => (n, (lookupOD d n).getD [])), ?_, ?_, ?_⟩
    · exact hrun.trans (congrArg some hfold)
    · intro kv
      constructor
      · intro hkv
        rcases List.mem_map.mp hkv with ⟨n, hn, hkveq⟩
        obtain ⟨v, hv⟩ := lookupOD_isSome (hnsmem n hn)
        have he2 : kv = (n, v) := by
          rw [← hkveq, hv]
          rfl
        rw [he2]
        exact lookupOD_mem hv
      · intro hkv
        obtain ⟨k, v⟩ := kv
        have hkns : k ∈ List.insertionSort lexLeP (d.map Prod.fst) :=
          hperm.mem_iff.mpr (List.mem_map_of_mem Prod.fst hkv)
        have hlk : lookupOD d k = some v := mem_lookupOD hnd hkv
        refine List.mem_map.mpr ⟨k, hkns, ?_⟩
        rw [hlk]
        rfl
    · have hmapfst : ((List.insertionSort lexLeP (d.map Prod.fst)).map
          (fun n => (n, (lookupOD d n).getD []))).map Prod.fst
          = List.insertionSort lexLeP (d.map Prod.fst) := by
        rw [List.map_map]
        have hcomp : (Prod.fst ∘ fun n : List Char =>
            (n, (lookupOD d n).getD [])) = id := funext (fun n => rfl)
        rw [hcomp, List.map_id]
      rw [hmapfst]
      exact List.sorted_insertionSort lexLeP (d.map Prod.fst)

/-- Witness for the amended C9 theorem at the one-entry mapping
`"sub" -> "src"`. -/
theorem hgsub_roundtrip_amended_witness :
    parse_hgsub (splitNL (serialize_hgsub [(toL "sub", toL "src")]))
      = some [(toL "sub", toL "src")] ∧
    ∃ e, parse_hgsubstate (splitNL (serialize_hgsubstate
        [(toL "sub", toL "src")])) = some e ∧
      (∀ kv, kv ∈ e ↔ kv ∈ [(toL "sub", toL "src")]) ∧
      (e.map Prod.fst).Sorted lexLeP :=
  hgsub_roundtrip_amended [(toL "sub", toL "src")]
    (by decide) (by decide) (by decide) (by decide)
